import Mathlib

set_option maxHeartbeats 1000000
set_option maxRecDepth 4000

/-!
Verification of the datum-mcp field-path allow-list engine: a shallow
embedding of the registry, pruner, skeleton builder and validator of
src/server.py and src/discovery.py.

Parsed YAML/JSON documents are modelled by the inductive type Yaml below.
Mappings are association lists with string keys in insertion order, which
mirrors Python dict semantics for the documents this program manipulates
(documents produced by yaml.safe_load have unique keys per mapping, and
Python dicts preserve insertion order; dict.pop removes a key, assignment
to an existing key keeps its position).  Machine-level details that the
claims do not touch (non-string mapping keys, floating point scalars) are
outside the model.
-/

inductive Yaml where
  | null
  | bool (b : Bool)
  | int (n : Int)
  | str (s : String)
  | arr (xs : List Yaml)
  | map (kvs : List (String × Yaml))

namespace Yaml

/-- Python dict .get: first binding of the key (dicts have unique keys). -/
def getK : List (String × Yaml) → String → Option Yaml
  | [], _ => none
  | (k, v) :: rest, key => if k = key then some v else getK rest key

/-- Python dict assignment to an existing key (keeps position) or append. -/
def setK : List (String × Yaml) → String → Yaml → List (String × Yaml)
  | [], key, val => [(key, val)]
  | (k, v) :: rest, key, val =>
      if k = key then (k, val) :: rest else (k, v) :: setK rest key val

/-- Python dict .pop(key, None): drop the binding if present. -/
def popK : List (String × Yaml) → String → List (String × Yaml)
  | [], _ => []
  | (k, v) :: rest, key => if k = key then rest else (k, v) :: popK rest key

/-- Python truthiness of a parsed YAML value. -/
def truthy : Yaml → Bool
  | .null => false
  | .bool b => b
  | .int n => !(n == 0)
  | .str s => !(s == "")
  | .arr xs => !xs.isEmpty
  | .map kvs => !kvs.isEmpty

/-- Python `v or {}`: the value when truthy, else a fresh empty dict. -/
def orElse (v : Yaml) : Yaml := if truthy v then v else .map []

def isMap : Yaml → Bool
  | .map _ => true
  | _ => false

/-- Python type name, used in AttributeError messages. -/
def pyType : Yaml → String
  | .null => "NoneType"
  | .bool _ => "bool"
  | .int _ => "int"
  | .str _ => "str"
  | .arr _ => "list"
  | .map _ => "dict"

end Yaml

/-- Python str(x) as used in f-strings: strings unquoted, None, True/False,
integers in decimal; containers are rendered only schematically (no claim
depends on their exact repr). -/
def pyStr : Yaml → String
  | .null => "None"
  | .bool b => if b then "True" else "False"
  | .int n => toString n
  | .str s => s
  | .arr _ => "[...]"
  | .map _ => "\x7b...\x7d"

/-- Python str(x) where x came from dict.get (absent key gives None). -/
def pyStrOpt : Option Yaml → String
  | none => "None"
  | some v => pyStr v

/-! ### The index-stripping substitution `_IDX = re.compile(r"\[\d+]")`

`_IDX.sub("", path)` removes every non-overlapping occurrence of a literal
`[`, one or more ASCII digits, and a literal `]`, scanning left to right.
We implement that scan directly on the character list. -/

/-- After `[` and at least one digit: consume digits until `]`; `some rest`
is the input after the closing bracket, `none` means no match here. -/
def dropIdxRest : List Char → Option (List Char)
  | [] => none
  | c :: cs => if c = ']' then some cs else if c.isDigit then dropIdxRest cs else none

/-- Given the characters after a `[`: match `\d+]` and return the rest. -/
def dropIdx : List Char → Option (List Char)
  | [] => none
  | c :: cs => if c.isDigit then dropIdxRest cs else none

theorem dropIdxRest_length : ∀ cs r, dropIdxRest cs = some r → r.length < cs.length := by
  intro cs
  induction cs with
  | nil => intro r h; simp [dropIdxRest] at h
  | cons c cs ih =>
    intro r h
    simp only [dropIdxRest] at h
    by_cases hc : c = ']'
    · simp [hc] at h; simp [← h]
    · by_cases hd : c.isDigit
      · simp [hc, hd] at h
        have := ih r h
        simpa using Nat.lt_succ_of_lt this
      · simp [hc, hd] at h

theorem dropIdx_length : ∀ cs r, dropIdx cs = some r → r.length < cs.length := by
  intro cs r h
  cases cs with
  | nil => simp [dropIdx] at h
  | cons c cs =>
    simp only [dropIdx] at h
    by_cases hd : c.isDigit
    · simp [hd] at h
      have := dropIdxRest_length cs r h
      simpa using Nat.lt_succ_of_lt this
    · simp [hd] at h

/-- The global substitution `_IDX.sub("", ·)` on a character list. -/
def idxSubAux : List Char → List Char
  | [] => []
  | c :: cs =>
      if c = '[' then
        match h : dropIdx cs with
        | some rest => idxSubAux rest
        | none => c :: idxSubAux cs
      else c :: idxSubAux cs
termination_by l => l.length
decreasing_by
  · exact Nat.lt_succ_of_lt (dropIdx_length cs rest h)
  · simp
  · simp

/-- `_IDX.sub("", path)` on strings. -/
def idxSub (s : String) : String := ⟨idxSubAux s.data⟩

/-- Python str.startswith. -/
def startsw (s p : String) : Bool := p.data.isPrefixOf s.data

example : idxSub "spec.rules[3].name" = "spec.rules.name" := by
  simp [idxSub, idxSubAux, dropIdx, dropIdxRest]
example : startsw "spec.x" "spec." = true := by decide
example : startsw "spec" "spec." = false := by decide

/-! ### The spec-path pruning walk (server.py, `walk` inside `_prune`)

```
def walk(node, dotted=""):
    if isinstance(node, dict):
        for k in list(node.keys()):
            here = f"{dotted}.{k}" if dotted else k
            clean = _IDX.sub("", here)
            if clean.startswith("spec.") and clean not in allowed:
                removed_spec.append(clean)
                node.pop(k)
            else:
                walk(node[k], here)
    elif isinstance(node, list):
        for i, x in enumerate(node):
            walk(x, f"{dotted}[{i}]")
```

The in-place mutation plus the append-only `removed_spec` list become a
function returning the rewritten node together with the paths recorded
while visiting it, in visit (pre-)order. -/

mutual

def walkY (al : List String) (dotted : String) : Yaml → Yaml × List String
  | .map kvs =>
      let r := walkKVs al dotted kvs
      (.map r.1, r.2)
  | .arr xs =>
      let r := walkArr al dotted 0 xs
      (.arr r.1, r.2)
  | v => (v, [])

def walkKVs (al : List String) (dotted : String) :
    List (String × Yaml) → List (String × Yaml) × List String
  | [] => ([], [])
  | (k, v) :: rest =>
      let here := if dotted = "" then k else dotted ++ "." ++ k
      let clean := idxSub here
      if startsw clean "spec." && !(al.contains clean) then
        let r := walkKVs al dotted rest
        (r.1, clean :: r.2)
      else
        let rv := walkY al here v
        let r := walkKVs al dotted rest
        ((k, rv.1) :: r.1, rv.2 ++ r.2)

def walkArr (al : List String) (dotted : String) (i : Nat) :
    List Yaml → List Yaml × List String
  | [] => ([], [])
  | x :: rest =>
      let rx := walkY al (dotted ++ "[" ++ toString i ++ "]") x
      let r := walkArr al dotted (i + 1) rest
      (rx.1 :: r.1, rx.2 ++ r.2)

end

example :
    walkY ["spec.a"] ""
      (.map [("spec", .map [("a", .int 1), ("b", .int 2)])]) =
    (.map [("spec", .map [("a", .int 1)])], ["spec.b"]) := by
  simp [walkY, walkKVs, walkArr, idxSub, idxSubAux, dropIdx, dropIdxRest, startsw]

/-! ### The discovery registry (discovery.py, `DiscoveryCache` lookup tables)

The four tables are association lists keyed the way the Python dicts are:
`full_schema` and `top_allowed` and `allowed` by the `(apiVersion, kind)`
pair, `kind2api` by kind.  All keys written by `_register_schema` are
strings.  `allowed` values are the collected spec paths; a Python set is
used only through membership, sorting and len, so a list of the inserted
elements is an adequate model. -/

structure Registry where
  full_schema : List ((String × String) × Yaml)
  top_allowed : List ((String × String) × List String)
  allowed : List ((String × String) × List String)
  kind2api : List (String × List String)

def emptyRegistry : Registry := ⟨[], [], [], []⟩

def lookupP (l : List ((String × String) × α)) (key : String × String) : Option α :=
  match l with
  | [] => none
  | (k, v) :: rest => if k = key then some v else lookupP rest key

def setP (l : List ((String × String) × α)) (key : String × String) (val : α) :
    List ((String × String) × α) :=
  match l with
  | [] => [(key, val)]
  | (k, v) :: rest => if k = key then (k, val) :: rest else (k, v) :: setP rest key val

/-- Python errors surfacing from a request handler: an HTTPException with a
status code and a detail string, or any other uncaught exception (modelled
with the message text; FastAPI would turn it into a 500). -/
inductive Err where
  | http (code : Nat) (detail : String)
  | py (msg : String)

theorem Err.http_ne_py (c : Nat) (d m : String) : Err.http c d ≠ Err.py m := by
  intro h; cases h

/-- server.py: `ALLOWED_META_ANNOTATIONS: set[str] = set()`. -/
def ALLOWED_META_ANNOTATIONS : List String := []

/-- server.py: `ALLOWED_META_LABELS: set[str] = set()`. -/
def ALLOWED_META_LABELS : List String := []

/-- One annotations/labels block of `_prune`: for a mapping value under
`field`, drop every key not in the allow set (recording
`metadata.<field>.<k>` in iteration order), then pop the field if the
mapping was emptied; any non-mapping or absent value is untouched. -/
def annStep (mkvs : List (String × Yaml)) (field : String) (allowedKeys : List String) :
    List (String × Yaml) × List String :=
  match Yaml.getK mkvs field with
  | some (.map akvs) =>
      let kept := akvs.filter (fun p => allowedKeys.contains p.1)
      let removed := (akvs.filter (fun p => !allowedKeys.contains p.1)).map
        (fun p => "metadata." ++ field ++ "." ++ p.1)
      if kept.isEmpty then (Yaml.popK mkvs field, removed)
      else (Yaml.setK mkvs field (.map kept), removed)
  | _ => (mkvs, [])

/-- server.py `_prune`, metadata section (lines 93-115): only runs when the
value of `metadata` is a mapping; processes annotations then labels, then
pops an emptied metadata mapping. -/
def pruneMetaStage (kvs : List (String × Yaml)) : List (String × Yaml) × List String :=
  match Yaml.getK kvs "metadata" with
  | some (.map mkvs) =>
      let r1 := annStep mkvs "annotations" ALLOWED_META_ANNOTATIONS
      let r2 := annStep r1.1 "labels" ALLOWED_META_LABELS
      let kvs2 := if r2.1.isEmpty then Yaml.popK kvs "metadata"
                  else Yaml.setK kvs "metadata" (.map r2.1)
      (kvs2, r1.2 ++ r2.2)
  | _ => (kvs, [])

/-- server.py `_prune`, top-level section (lines 117-123): drop (and
record) every top-level key outside `allowed_top | {apiVersion, kind,
metadata}`. -/
def pruneTopStage (allowedTop : List String) (kvs : List (String × Yaml)) :
    List (String × Yaml) × List String :=
  let always : List String := ["apiVersion", "kind", "metadata"]
  (kvs.filter (fun p => allowedTop.contains p.1 || always.contains p.1),
   (kvs.filter (fun p => !(allowedTop.contains p.1 || always.contains p.1))).map (·.1))

/-- The registry key for the document, when both `apiVersion` and `kind`
are strings; with any other values (including absent, i.e. Python None)
the `(api, kind) in _FULL_SCHEMA` lookup can never succeed because every
registered key is a pair of strings. -/
def keyOf : Option Yaml → Option Yaml → Option (String × String)
  | some (.str a), some (.str k) => some (a, k)
  | _, _ => none

/-- server.py `_prune` after YAML parsing: takes the parsed document value
(`yaml.safe_load(doc) or {}` is applied here), returns the cleaned
document tree with the two removal lists, or the raised error.  A document
whose top level is a truthy non-mapping makes `data.get("apiVersion")`
raise AttributeError in Python, modelled as `Err.py`. -/
def pruneData (reg : Registry) (v : Yaml) : Except Err (Yaml × List String × List String) :=
  let data := Yaml.orElse v
  match data with
  | .map kvs =>
      let api := Yaml.getK kvs "apiVersion"
      let kind := Yaml.getK kvs "kind"
      let known := match keyOf api kind with
        | some key => (lookupP reg.full_schema key).isSome
        | none => false
      if known = false then
        .error (.http 400 (pyStrOpt api ++ "/" ++ pyStrOpt kind ++
          " is not known to the control plane"))
      else
        match keyOf api kind with
        | some key =>
            let step1 := match lookupP reg.allowed key with
              | some al => walkY al "" (.map kvs)
              | none => (.map kvs, [])
            match step1.1 with
            | .map kvs1 =>
                let m := pruneMetaStage kvs1
                let t := pruneTopStage ((lookupP reg.top_allowed key).getD []) m.1
                .ok (.map t.1, step1.2, m.2 ++ t.2)
            | _ => .error (.py "unreachable: walk preserves the mapping shape")
        | none => .error (.py "unreachable: known implies a string key")
  | other =>
      .error (.py ("AttributeError: " ++ other.pyType ++
        " object has no attribute get"))

/-! ### Size lemmas for recursion through dictionary lookups -/

theorem yamlSizeOf_pos (v : Yaml) : 1 ≤ sizeOf v := by
  cases v <;> simp <;> omega

theorem listSizeOf_pos (l : List α) [SizeOf α] : 1 ≤ sizeOf l := by
  cases l <;> simp <;> omega

theorem sizeOf_getK {kvs : List (String × Yaml)} {key : String} {v : Yaml}
    (h : Yaml.getK kvs key = some v) : sizeOf v < sizeOf kvs := by
  induction kvs with
  | nil => simp [Yaml.getK] at h
  | cons p rest ih =>
    obtain ⟨k, w⟩ := p
    simp only [Yaml.getK] at h
    by_cases hk : k = key
    · simp [hk] at h
      subst h
      simp
      omega
    · simp [hk] at h
      have := ih h
      simp
      omega

theorem sizeOf_orElse (v : Yaml) : sizeOf (Yaml.orElse v) ≤ sizeOf v + 1 := by
  unfold Yaml.orElse
  by_cases h : Yaml.truthy v
  · simp [h]
  · simp [h]
    have := yamlSizeOf_pos v
    simp
    omega

/-- Leaves of a mapping, or nothing: used to read `properties`. -/
def asMapD : Yaml → List (String × Yaml)
  | .map kvs => kvs
  | _ => []

theorem sizeOf_asMapD (v : Yaml) : sizeOf (asMapD v) ≤ sizeOf v := by
  cases v <;> simp [asMapD]

/-- `node.get(key, {}) or {}` followed by `.items()`: the property list. -/
def propsOf (kvs : List (String × Yaml)) (key : String) : List (String × Yaml) :=
  asMapD (Yaml.orElse ((Yaml.getK kvs key).getD (.map [])))

theorem sizeOf_propsOf (kvs : List (String × Yaml)) (key : String) :
    sizeOf (propsOf kvs key) < sizeOf (Yaml.map kvs) := by
  unfold propsOf
  cases h : Yaml.getK kvs key with
  | none =>
      simp [Yaml.orElse, Yaml.truthy, asMapD]
      have := listSizeOf_pos (α := (String × Yaml)) kvs
      omega
  | some p =>
      have h1 := sizeOf_getK h
      have h2 := sizeOf_orElse p
      have h3 := sizeOf_asMapD (Yaml.orElse p)
      simp only [Option.getD_some]
      simp
      omega

/-- `node.get(key) or {}`: used for `items` and combinator branches. -/
def fieldOr (kvs : List (String × Yaml)) (key : String) : Yaml :=
  Yaml.orElse ((Yaml.getK kvs key).getD .null)

theorem sizeOf_fieldOr_of_mem (kvs : List (String × Yaml)) (key witKey : String)
    (wit : Yaml) (hwit : Yaml.getK kvs witKey = some wit) :
    sizeOf (fieldOr kvs key) < sizeOf (Yaml.map kvs) := by
  unfold fieldOr
  have hk : 2 ≤ sizeOf kvs := by
    have := sizeOf_getK hwit
    have := yamlSizeOf_pos wit
    omega
  cases h : Yaml.getK kvs key with
  | none =>
      simp [Yaml.orElse, Yaml.truthy]
      omega
  | some p =>
      have h1 := sizeOf_getK h
      have h2 := sizeOf_orElse p
      simp only [Option.getD_some]
      simp
      omega

theorem sizeOf_lt_map (kvs : List (String × Yaml)) : sizeOf kvs < sizeOf (Yaml.map kvs) := by
  simp

theorem sizeOf_getK_lt_map {kvs : List (String × Yaml)} {key : String} {v : Yaml}
    (h : Yaml.getK kvs key = some v) : sizeOf v < sizeOf (Yaml.map kvs) := by
  have := sizeOf_getK h
  simp
  omega

theorem sizeOf_orElse_cons (e : Yaml) (rest : List Yaml) :
    sizeOf (Yaml.orElse e) < sizeOf (e :: rest) := by
  have h1 := sizeOf_orElse e
  have h3 := listSizeOf_pos (α := Yaml) rest
  simp
  omega

theorem sizeOf_orElse_consP (k : String) (v : Yaml) (rest : List (String × Yaml)) :
    sizeOf (Yaml.orElse v) < sizeOf ((k, v) :: rest) := by
  have h1 := sizeOf_orElse v
  have h3 := listSizeOf_pos (α := String × Yaml) rest
  simp
  omega

theorem sizeOf_tailY (x : Yaml) (rest : List Yaml) : sizeOf rest < sizeOf (x :: rest) := by
  have := yamlSizeOf_pos x
  simp

theorem sizeOf_tailP (x : String × Yaml) (rest : List (String × Yaml)) :
    sizeOf rest < sizeOf (x :: rest) := by
  simp

/-! ### The path collector (discovery.py, `DiscoveryCache._collect_paths`)

```
def _collect_paths(self, node: dict, base: str, out: Set[str]):
    if node.get("x-kubernetes-preserve-unknown-fields") is True:
        out.add(base + ".*")
    for key in ("allOf", "anyOf", "oneOf"):
        if key in node and isinstance(node[key], list):
            for sub in node[key]:
                self._collect_paths(sub or {}, base, out)
    t = node.get("type")
    if t == "object":
        props = node.get("properties", {}) or {}
        for k, sub in props.items():
            here = f"{base}.{k}" if base else k
            out.add(here)
            self._collect_paths(sub or {}, here, out)
        addl = node.get("additionalProperties")
        if isinstance(addl, dict):
            out.add(base + ".*")
            self._collect_paths(addl, base, out)
        elif addl is True:
            out.add(base + ".*")
    elif t == "array":
        self._collect_paths((node.get("items") or {}), base, out)
```

The set `out` is modelled by the list of elements in insertion order
(membership is all the callers use).  A non-mapping truthy node makes
`node.get` raise in Python; `wfSchema` below bounds the schemas on which
registration terminates normally, and on those the model agrees with the
source.  On non-mapping nodes the model returns `[]`. -/

mutual

def collectPs (node : Yaml) (base : String) : List String :=
  match node with
  | .map kvs =>
      let w := match Yaml.getK kvs "x-kubernetes-preserve-unknown-fields" with
        | some (.bool true) => [base ++ ".*"]
        | _ => []
      let combs := collectComb kvs "allOf" base ++ collectComb kvs "anyOf" base ++
        collectComb kvs "oneOf" base
      let rest :=
        match hT : Yaml.getK kvs "type" with
        | some (.str tstr) =>
          if tstr = "object" then
            let fromProps := collectProps (propsOf kvs "properties") base
            let addl := match hAddl : Yaml.getK kvs "additionalProperties" with
              | some (.map akvs) => (base ++ ".*") :: collectPs (.map akvs) base
              | some (.bool true) => [base ++ ".*"]
              | _ => []
            fromProps ++ addl
          else if tstr = "array" then
            collectPs (fieldOr kvs "items") base
          else []
        | _ => []
      w ++ combs ++ rest
  | _ => []
termination_by sizeOf node
decreasing_by
  all_goals first
    | exact sizeOf_propsOf _ "properties"
    | exact sizeOf_getK_lt_map hAddl
    | exact sizeOf_fieldOr_of_mem _ "items" _ _ hT
    | exact sizeOf_lt_map _
    | simp
    | (simp; omega)

def collectComb (kvs : List (String × Yaml)) (key : String) (base : String) : List String :=
  match h : Yaml.getK kvs key with
  | some (.arr subs) => collectList subs base
  | _ => []
termination_by sizeOf kvs
decreasing_by
  have := sizeOf_getK h
  simp at this
  omega

def collectList (subs : List Yaml) (base : String) : List String :=
  match subs with
  | [] => []
  | e :: rest => collectPs (Yaml.orElse e) base ++ collectList rest base
termination_by sizeOf subs
decreasing_by
  all_goals first
    | exact sizeOf_orElse_cons _ _
    | exact sizeOf_tailY _ _
    | simp

def collectProps (pkvs : List (String × Yaml)) (base : String) : List String :=
  match pkvs with
  | [] => []
  | (k, sub) :: rest =>
      let here := if base = "" then k else base ++ "." ++ k
      (here :: collectPs (Yaml.orElse sub) here) ++ collectProps rest base
termination_by sizeOf pkvs
decreasing_by
  all_goals first
    | exact sizeOf_orElse_consP _ _ _
    | exact sizeOf_tailP _ _
    | simp

end

example :
    collectPs (.map [("type", .str "object"),
      ("properties", .map [("rules", .map [("type", .str "array"),
        ("items", .map [("type", .str "object"),
          ("properties", .map [("name", .map [("type", .str "string")])])])])])])
      "spec" = ["spec.rules", "spec.rules.name"] := by
  simp [collectPs, collectComb, collectList, collectProps, propsOf, fieldOr,
    asMapD, Yaml.getK, Yaml.orElse, Yaml.truthy]

/-! ### The skeleton builder (server.py, `_make_skeleton`) -/

/-- Python `v or []`. -/
def orElseA (v : Yaml) : Yaml := if Yaml.truthy v then v else .arr []

/-- `set(node.get("required", []) or [])` restricted to its string elements.
This filter is faithful only when the truthy value is a list of hashable
elements: membership of a string key in a set built from a list matches the
string-filtered list, since non-string elements never equal a string key.
Python diverges from it elsewhere — `set(dict)` yields the dict's key set
(so a dict-valued `required` can require keys this model drops), and
`set(...)` raises TypeError on a non-iterable or on unhashable elements.
Every place the skeleton builder evaluates `set(... required ...)` is
therefore guarded by `reqOk` inside C6's `wfSchemaTop` hypothesis: at the
top level and at every object node of a `wfS` subtree directly, and at the
metadata subschema by a dedicated clause. -/
def reqSetL (kvs : List (String × Yaml)) : List String :=
  match orElseA ((Yaml.getK kvs "required").getD (.arr [])) with
  | .arr xs => xs.filterMap (fun x => match x with | .str s => some s | _ => none)
  | _ => []

/-! `_make_skeleton`'s inner `build`:

```
def build(node: dict):
    t = node.get("type")
    if t == "object":
        out = {}
        req = set(node.get("required", []) or [])
        for k, sub in (node.get("properties") or {}).items():
            if k in req:
                out[k] = build(sub or {})
        return out
    if t == "array":
        return [build(node.get("items") or {})]
    return None  # primitive → neutral placeholder (null)
```

The model totalizes one error path: a truthy non-mapping node makes
`node.get` raise AttributeError in Python (the handler would return a
500), while this `build` maps such a node to null.  The reachable call
sites are `build(props["spec"])` and the unguarded `build(props[k])` of
`_make_skeleton`'s else branch, plus the recursive `sub or {}` /
`node.get("items") or {}` positions.  C6's `wfSchemaTop` hypothesis
covers all of them: `wfS` holds for the spec subschema respectively for
every required top-level property subschema, and `wfS` forces every node
`build` recurses into (the `Yaml.orElse` of each property, `fieldOr` of
`items`) to be a mapping, so on that domain this total function agrees
with the Python builder node for node; outside it the `.null` result
stands in for an exception the program would raise instead of producing a
skeleton. -/

mutual

def build (node : Yaml) : Yaml :=
  match node with
  | .map kvs =>
      match hT : Yaml.getK kvs "type" with
      | some (.str tstr) =>
          if tstr = "object" then
            .map (buildProps (propsOf kvs "properties") (reqSetL kvs))
          else if tstr = "array" then
            .arr [build (fieldOr kvs "items")]
          else .null
      | _ => .null
  | _ => .null
termination_by sizeOf node
decreasing_by
  all_goals first
    | exact sizeOf_propsOf _ "properties"
    | exact sizeOf_fieldOr_of_mem _ "items" _ _ hT
    | simp
    | (simp; omega)

def buildProps (pkvs : List (String × Yaml)) (req : List String) : List (String × Yaml) :=
  match pkvs with
  | [] => []
  | (k, sub) :: rest =>
      if req.contains k then (k, build (Yaml.orElse sub)) :: buildProps rest req
      else buildProps rest req
termination_by sizeOf pkvs
decreasing_by
  all_goals first
    | exact sizeOf_orElse_consP _ _ _
    | exact sizeOf_tailP _ _
    | simp

end

/-- Deduplication (modelling `set(...)`; only membership and the sorted
image are ever consumed). -/
def dedupStr : List String → List String
  | [] => []
  | a :: rest => a :: dedupStr (rest.filter (fun b => !(b == a)))
termination_by l => l.length
decreasing_by
  have := List.length_filter_le (fun b => !(b == a)) rest
  simp
  omega

/-- Insertion sort with Python's lexicographic string order (`sorted`). -/
def insStr (a : String) : List String → List String
  | [] => [a]
  | b :: rest => if a ≤ b then a :: b :: rest else b :: insStr a rest

def sortStr : List String → List String
  | [] => []
  | a :: rest => insStr a (sortStr rest)

/-! `_make_skeleton` assembled document, before `yaml.safe_dump`:

```
body = {"apiVersion": api, "kind": kind}
meta_schema = props.get("metadata")
if isinstance(meta_schema, dict):
    needed = set(meta_schema.get("required", []) or [])
    meta = {}
    if "name" in needed: meta["name"] = ""
    if "namespace" in needed: meta["namespace"] = ""
    if meta: body["metadata"] = meta
if "spec" in props:
    body["spec"] = build(props["spec"]) or {}
else:
    req = set(schema.get("required", []) or []) - {"apiVersion", "kind", "metadata"}
    for k in sorted(req):
        if k in props: body[k] = build(props[k])
```
-/
/-- The metadata stanza of `_make_skeleton` (name/namespace when the
metadata schema requires them). -/
def skelMeta (props : List (String × Yaml)) : List (String × Yaml) :=
  match Yaml.getK props "metadata" with
  | some (.map ms) =>
      let needed := reqSetL ms
      let meta := (if needed.contains "name" then [("name", Yaml.str "")] else []) ++
                  (if needed.contains "namespace" then [("namespace", Yaml.str "")] else [])
      if meta.isEmpty then [] else [("metadata", Yaml.map meta)]
  | _ => []

/-- The required top-level fields of `_make_skeleton`'s else branch. -/
def skelReq (skvs props : List (String × Yaml)) : List (String × Yaml) :=
  (sortStr (dedupStr ((reqSetL skvs).filter
    (fun k => !(["apiVersion", "kind", "metadata"].contains k))))).filterMap
    (fun k => (Yaml.getK props k).map (fun sub => (k, build sub)))

def skeletonBody (schema : Yaml) (api kind : String) : Yaml :=
  let skvs := asMapD schema
  let props := propsOf skvs "properties"
  let base := [("apiVersion", Yaml.str api), ("kind", Yaml.str kind)] ++ skelMeta props
  match Yaml.getK props "spec" with
  | some specSchema => .map (base ++ [("spec", Yaml.orElse (build specSchema))])
  | none => .map (base ++ skelReq skvs props)

/-! ### Registration (discovery.py, `DiscoveryCache._register_schema`) -/

def lookupS (l : List (String × α)) (key : String) : Option α :=
  match l with
  | [] => none
  | (k, v) :: rest => if k = key then some v else lookupS rest key

def setS (l : List (String × α)) (key : String) (val : α) : List (String × α) :=
  match l with
  | [] => [(key, val)]
  | (k, v) :: rest => if k = key then (k, val) :: rest else (k, v) :: setS rest key val

/--
```
def _register_schema(self, api, kind, schema):
    self.full_schema[(api, kind)] = schema
    self.kind2api.setdefault(kind, [])
    if api not in self.kind2api[kind]:
        self.kind2api[kind].append(api)
    props = schema.get("properties", {}) or {}
    self.top_allowed[(api, kind)] = set(props.keys())
    if "spec" in props:
        s = set(); self._collect_paths(props["spec"], base="spec", out=s)
        self.allowed[(api, kind)] = s
```
Note: when the new schema has no `spec` property, a previously stored
`allowed` entry for the same key is left in place (the source never
deletes it). -/
def registerSchema (reg : Registry) (api kind : String) (schema : Yaml) : Registry :=
  let full := setP reg.full_schema (api, kind) schema
  let k2a := match lookupS reg.kind2api kind with
    | some apis =>
        if apis.contains api then reg.kind2api else setS reg.kind2api kind (apis ++ [api])
    | none => reg.kind2api ++ [(kind, [api])]
  let props := propsOf (asMapD schema) "properties"
  let top := setP reg.top_allowed (api, kind) (props.map (·.1))
  let alw := match Yaml.getK props "spec" with
    | some specSchema => setP reg.allowed (api, kind) (collectPs specSchema "spec")
    | none => reg.allowed
  { full_schema := full, top_allowed := top, allowed := alw, kind2api := k2a }

/-! ### Ingestion and refresh (discovery.py) -/

def GITHUB_REPO : String := "datum-cloud/network-services-operator"
def GITHUB_REF : String := "main"
def GITHUB_DIR : String := "config/crd/bases"

def dirUrl : String :=
  "https://api.github.com/repos/" ++ GITHUB_REPO ++ "/contents/" ++ GITHUB_DIR ++
  "?ref=" ++ GITHUB_REF

/-- Python str.endswith. -/
def endsw (s p : String) : Bool := p.data.isSuffixOf s.data

/-- One `versions` entry of `_ingest_crd` (the loop body). -/
def ingestVersion (reg : Registry) (group : Yaml) (kindS : String) (v : Yaml) : Registry :=
  match v with
  | .map vkvs =>
      let served := (Yaml.getK vkvs "served").getD (.bool true)
      if !Yaml.truthy served then reg
      else
        let ver := (Yaml.getK vkvs "name").getD .null
        let openapi := fieldOr (asMapD (fieldOr vkvs "schema")) "openAPIV3Schema"
        if !Yaml.truthy ver then reg
        else
          match openapi with
          | .map okvs =>
              let okvs1 := if (Yaml.getK okvs "type").isNone
                then okvs ++ [("type", Yaml.str "object")] else okvs
              let okvs2 := if (Yaml.getK okvs1 "properties").isNone
                then okvs1 ++ [("properties", Yaml.map [])] else okvs1
              registerSchema reg (pyStr group ++ "/" ++ pyStr ver) kindS (.map okvs2)
          | _ => reg
  | _ => reg

/-- `_ingest_crd`: skip documents without truthy group, kind, versions;
a non-string kind would become a non-string dict key, outside this model
(never produced by the Datum CRDs). -/
def ingestCrd (reg : Registry) (crd : Yaml) : Registry :=
  let ckvs := asMapD crd
  let spec := asMapD (fieldOr ckvs "spec")
  let group := (Yaml.getK spec "group").getD .null
  let names := asMapD (fieldOr spec "names")
  let kindV := (Yaml.getK names "kind").getD .null
  let versions := fieldOr spec "versions"
  if !Yaml.truthy group || !Yaml.truthy kindV || !Yaml.truthy versions then reg
  else
    match kindV, versions with
    | .str kindS, .arr vs => vs.foldl (fun r v => ingestVersion r group kindS v) reg
    | _, _ => reg

/-- One group-version-kind entry of `_ingest_openapi`. -/
def ingestGvk (reg : Registry) (schema : Yaml) (g : Yaml) : Registry :=
  match g with
  | .map gkvs =>
      let group := (Yaml.getK gkvs "group").getD (.str "")
      let version := (Yaml.getK gkvs "version").getD .null
      let kindV := (Yaml.getK gkvs "kind").getD .null
      if !Yaml.truthy version || !Yaml.truthy kindV then reg
      else if endsw (pyStr kindV) "List" then reg
      else
        match kindV with
        | .str kindS =>
            if Yaml.truthy group then
              registerSchema reg (pyStr group ++ "/" ++ pyStr version) kindS schema
            else
              match version with
              | .str verS => registerSchema reg verS kindS schema
              | _ => reg
        | _ => reg
  | _ => reg

/-- `_ingest_openapi` over `components.schemas`. -/
def ingestOpenapi (reg : Registry) (doc : Yaml) : Registry :=
  let dkvs := asMapD doc
  let comps := propsOf dkvs "components"
  let schemas := propsOf comps "schemas"
  schemas.foldl (fun r p =>
    match p.2 with
    | .map skvs =>
        match orElseA ((Yaml.getK skvs "x-kubernetes-group-version-kind").getD .null) with
        | .arr gl => gl.foldl (fun r2 g => ingestGvk r2 p.2 g) r
        | _ => r
    | _ => r) reg

/-- The dispatch inside `DiscoveryCache.refresh`'s document loop. -/
def docDispatch (reg : Registry) (doc : Yaml) : Registry :=
  let dkvs := asMapD doc
  let isCrd := (match Yaml.getK dkvs "kind" with
      | some (.str s) => s = "CustomResourceDefinition"
      | _ => false) &&
    startsw (pyStr ((Yaml.getK dkvs "apiVersion").getD (.str ""))) "apiextensions.k8s.io/"
  if isCrd then ingestCrd reg doc
  else
    let hasSchemas := (Yaml.getK dkvs "components").isSome &&
      (match fieldOr dkvs "components" with
       | .map ckvs => (Yaml.getK ckvs "schemas").isSome
       | _ => false)
    if hasSchemas then ingestOpenapi reg doc else reg

/-- The entry loop of `DiscoveryCache.refresh`.  `fetch` stands for
`_fetch_json_or_yaml_docs` (already filtered to mapping documents); a
fetch failure propagates as an exception, leaving whatever the loop has
ingested so far in the (cleared-then-refilled) tables. -/
def refreshEntries (fetch : String → Except String (List Yaml)) :
    Registry → List Yaml → Registry × Option String
  | reg, [] => (reg, none)
  | reg, it :: rest =>
      match it with
      | .map ikvs =>
          if !(match Yaml.getK ikvs "type" with
               | some (.str s) => s = "file"
               | _ => false) then refreshEntries fetch reg rest
          else
            match (Yaml.getK ikvs "name").getD (.str "") with
            | .str name =>
                if !(endsw name ".yaml" || endsw name ".yml") then
                  refreshEntries fetch reg rest
                else
                  let durl := match Yaml.getK ikvs "download_url" with
                    | some u =>
                        if Yaml.truthy u then pyStr u
                        else "https://raw.githubusercontent.com/" ++ GITHUB_REPO ++ "/" ++
                          GITHUB_REF ++ "/" ++
                          ⟨(pyStr ((Yaml.getK ikvs "path").getD (.str ""))).data.dropWhile
                            (· = '/')⟩
                    | none => "https://raw.githubusercontent.com/" ++ GITHUB_REPO ++ "/" ++
                        GITHUB_REF ++ "/" ++
                        ⟨(pyStr ((Yaml.getK ikvs "path").getD (.str ""))).data.dropWhile
                          (· = '/')⟩
                  match fetch durl with
                  | .error e => (reg, some e)
                  | .ok docs => refreshEntries fetch (docs.foldl docDispatch reg) rest
            | other => (reg, some ("AttributeError: " ++ other.pyType ++
                " object has no attribute endswith"))
      | other => (reg, some ("AttributeError: " ++ other.pyType ++
          " object has no attribute get"))

/-- `DiscoveryCache.refresh`: the four tables are cleared *first*, then the
directory listing is fetched and each qualifying file ingested; the
resulting table state is returned together with the error, if any.  The
previous registry state plays no part: refresh never reads it. -/
def cacheRefresh (fetchListing : Except String Yaml)
    (fetch : String → Except String (List Yaml)) : Registry × Option String :=
  match fetchListing with
  | .error e => (emptyRegistry, some e)
  | .ok entries =>
      match entries with
      | .arr its => refreshEntries fetch emptyRegistry its
      | _ => (emptyRegistry,
          some ("GitHub contents listing did not return a list: " ++ dirUrl))

/-- server.py `refresh_discovery`: clears the four tables (discarding
`prior`), runs `DiscoveryCache.refresh`, and maps any exception to a 500;
on success returns `len(_FULL_SCHEMA)`. -/
def refreshDiscovery (prior : Registry) (fetchListing : Except String Yaml)
    (fetch : String → Except String (List Yaml)) : Registry × Except Err Nat :=
  let r := cacheRefresh fetchListing fetch
  match r.2 with
  | some e => (r.1, .error (.http 500 ("refresh failed: " ++ e)))
  | none => (r.1, .ok r.1.full_schema.length)

/-! ### Serialization model and the HTTP endpoints (server.py) -/

/-! Model of `yaml.safe_dump(data, sort_keys=False)`: block style, two
space indent, scalars rendered bare.  This stands in for the external
PyYAML serializer; the claims rely only on it being a concrete computable
rendering of the tree. -/

mutual

def dumpLines (ind : String) (v : Yaml) : List String :=
  match v with
  | .map [] => [ind ++ "\x7b\x7d"]
  | .arr [] => [ind ++ "[]"]
  | .map kvs => dumpMapLines ind kvs
  | .arr xs => dumpArrLines ind xs
  | .null => [ind ++ "null"]
  | .bool b => [ind ++ (if b then "true" else "false")]
  | .int n => [ind ++ toString n]
  | .str s => [ind ++ s]

def dumpMapLines (ind : String) : List (String × Yaml) → List String
  | [] => []
  | (k, v) :: rest =>
      (match v with
       | .map (_ :: _) => (ind ++ k ++ ":") :: dumpLines (ind ++ "  ") v
       | .arr (_ :: _) => (ind ++ k ++ ":") :: dumpLines (ind ++ "  ") v
       | _ => [ind ++ k ++ ": " ++ (dumpLines "" v).headD ""]) ++ dumpMapLines ind rest

def dumpArrLines (ind : String) : List Yaml → List String
  | [] => []
  | v :: rest =>
      (match v with
       | .map (_ :: _) => (ind ++ "-") :: dumpLines (ind ++ "  ") v
       | .arr (_ :: _) => (ind ++ "-") :: dumpLines (ind ++ "  ") v
       | _ => [ind ++ "- " ++ (dumpLines "" v).headD ""]) ++ dumpArrLines ind rest

end

def dumpYaml (v : Yaml) : String :=
  String.intercalate "\n" (dumpLines "" v) ++ "\n"

/-- server.py `prune` endpoint (`/datum/prune_crd`): any non-empty removal
list is surfaced as HTTP 422 whose detail joins the removed paths; only
the removal list reaches the detail, the cleaned text is discarded. -/
def pruneEndpoint (reg : Registry) (parsed : Except String Yaml) :
    Except Err (String × List String) :=
  match parsed with
  | .error e => .error (.http 400 ("Invalid YAML: " ++ e))
  | .ok v =>
      match pruneData reg v with
      | .error er => .error er
      | .ok (c, rs, rt) =>
          let removed := rs ++ rt
          if removed.isEmpty then .ok (dumpYaml c, [])
          else .error (.http 422
            ("Unsupported fields stripped:\n- " ++ String.intercalate "\n- " removed))

structure Verdict where
  valid : Bool
  details : String
deriving DecidableEq

/-- server.py `validate` endpoint: parse errors and HTTPException from
`_prune` become verdicts; any other exception escapes the handler. -/
def validateEndpoint (reg : Registry) (parsed : Except String Yaml) : Except Err Verdict :=
  match parsed with
  | .error e => .ok ⟨false, "Invalid YAML: " ++ e⟩
  | .ok v =>
      match pruneData reg v with
      | .error (.http _ detail) => .ok ⟨false, detail⟩
      | .error (.py m) => .error (.py m)
      | .ok (_, rs, rt) =>
          let removed := rs ++ rt
          if removed.isEmpty then
            .ok ⟨true, "Local schema check passed (no cluster dry-run)."⟩
          else
            .ok ⟨false, "Unsupported fields (local schema): " ++
              String.intercalate ", " removed⟩

/-- server.py `skeleton` endpoint. -/
def skeletonEndpoint (reg : Registry) (api kind : String) : Except Err String :=
  match lookupP reg.full_schema (api, kind) with
  | none => .error (.http 400 "Unknown apiVersion/kind")
  | some schema => .ok (dumpYaml (skeletonBody schema api kind))

/-- server.py `list_supported` endpoint (listAllowedPaths). -/
def listSupported (reg : Registry) (api kind : String) : Except Err (List String) :=
  if (lookupP reg.full_schema (api, kind)).isNone then
    .error (.http 400 "Unknown apiVersion/kind")
  else
    match lookupP reg.allowed (api, kind) with
    | some al => .ok (sortStr (dedupStr al))
    | none => .ok (sortStr (dedupStr (((lookupP reg.top_allowed (api, kind)).getD []).filter
        (fun k => !(["apiVersion", "kind", "metadata"].contains k)))))

/-! ### Well-formedness of schemas

Registration (`_collect_paths`) and the skeleton builder call `.get` on
every sub-node they visit; a truthy non-mapping sub-node raises
AttributeError in Python, aborting discovery for the whole source.  The
predicate below delimits the schemas on which both terminate normally, so
on them the total Lean models above agree with the source.  It also
requires `required` to be (absent, falsy, or) a list of strings, which the
top-level `sorted(req)` needs. -/

def reqOk (kvs : List (String × Yaml)) : Bool :=
  match Yaml.getK kvs "required" with
  | none => true
  | some v =>
      if Yaml.truthy v then
        match v with
        | .arr xs => xs.all (fun x => match x with | .str _ => true | _ => false)
        | _ => false
      else true

mutual

def wfS (node : Yaml) : Bool :=
  match node with
  | .map kvs =>
      reqOk kvs &&
      wfComb kvs "allOf" && wfComb kvs "anyOf" && wfComb kvs "oneOf" &&
      (match hT : Yaml.getK kvs "type" with
       | some (.str tstr) =>
           if tstr = "object" then
             Yaml.isMap (Yaml.orElse ((Yaml.getK kvs "properties").getD (.map []))) &&
             wfProps (propsOf kvs "properties") &&
             (match hA : Yaml.getK kvs "additionalProperties" with
              | some (.map akvs) => wfS (.map akvs)
              | _ => true)
           else if tstr = "array" then wfS (fieldOr kvs "items")
           else true
       | _ => true)
  | _ => false
termination_by sizeOf node
decreasing_by
  all_goals first
    | exact sizeOf_propsOf _ "properties"
    | exact sizeOf_getK_lt_map hA
    | exact sizeOf_fieldOr_of_mem _ "items" _ _ hT
    | exact sizeOf_lt_map _
    | simp
    | (simp; omega)

def wfComb (kvs : List (String × Yaml)) (key : String) : Bool :=
  match hC : Yaml.getK kvs key with
  | some (.arr subs) => wfList subs
  | _ => true
termination_by sizeOf kvs
decreasing_by
  have := sizeOf_getK hC
  simp at this
  omega

def wfList : List Yaml → Bool
  | [] => true
  | e :: rest => wfS (Yaml.orElse e) && wfList rest
termination_by l => sizeOf l
decreasing_by
  all_goals first
    | exact sizeOf_orElse_cons _ _
    | exact sizeOf_tailY _ _

def wfProps : List (String × Yaml) → Bool
  | [] => true
  | (k, sub) :: rest => wfS (Yaml.orElse sub) && wfProps rest
termination_by l => sizeOf l
decreasing_by
  all_goals first
    | exact sizeOf_orElse_consP _ _ _
    | exact sizeOf_tailP _ _

end

mutual

def namesOk (node : Yaml) : Bool :=
  match node with
  | .map kvs =>
      match hT : Yaml.getK kvs "type" with
      | some (.str tstr) =>
          if tstr = "object" then namesProps (propsOf kvs "properties")
          else if tstr = "array" then namesOk (fieldOr kvs "items")
          else true
      | _ => true
  | _ => true
termination_by sizeOf node
decreasing_by
  all_goals first
    | exact sizeOf_propsOf _ "properties"
    | exact sizeOf_fieldOr_of_mem _ "items" _ _ hT
    | simp
    | (simp; omega)

def namesProps : List (String × Yaml) → Bool
  | [] => true
  | (k, sub) :: rest => (idxSub k == k) && namesOk (Yaml.orElse sub) && namesProps rest
termination_by l => sizeOf l
decreasing_by
  all_goals first
    | exact sizeOf_orElse_consP _ _ _
    | exact sizeOf_tailP _ _

end

/-- Well-formedness of a registered full schema, as the skeleton builder
needs it: it delimits the schemas on which `_make_skeleton` runs to
completion without an AttributeError or TypeError and on which the total
Lean models (`build`, `reqSetL`, `skelMeta`, `skelReq`) agree with the
Python source at every node the builder actually visits.  Clause by
clause: `properties` is a mapping (else `props.get`/`"spec" in props`
raise); top-level `required` satisfies `reqOk` (else `set(...)` raises on
unhashables or, on a dict, silently uses its key set); the metadata
subschema's `required`, when that subschema is a mapping, satisfies
`reqOk` for the same reason (`needed = set(meta_schema.get("required", [])
or [])`); when a `spec` property exists, that subschema is well-formed
(`wfS`, so every `.get`-visited node under `build` is a mapping and every
nested `required` is a string list) with index-stable property names;
when it does not, the else branch runs `build(props[k])` with no `or {}`
guard on every required top-level property, so each such subschema must
itself satisfy `wfS`. -/
def wfSchemaTop (schema : Yaml) : Bool :=
  match schema with
  | .map skvs =>
      Yaml.isMap (Yaml.orElse ((Yaml.getK skvs "properties").getD (.map []))) &&
      reqOk skvs &&
      (match Yaml.getK (propsOf skvs "properties") "metadata" with
       | some (.map ms) => reqOk ms
       | _ => true) &&
      (match Yaml.getK (propsOf skvs "properties") "spec" with
       | some sp => wfS sp && namesOk sp
       | none =>
           ((reqSetL skvs).filter
             (fun k => !(["apiVersion", "kind", "metadata"].contains k))).all
             (fun k =>
               match Yaml.getK (propsOf skvs "properties") k with
               | some sub => wfS sub
               | none => true))
  | _ => false

/-! ## General lemmas -/

theorem strext {s t : String} (h : s.data = t.data) : s = t := congrArg String.mk h

theorem strData_append (a b : String) : (a ++ b).data = a.data ++ b.data := rfl

theorem strData_empty : ("" : String).data = [] := rfl

theorem str_ne_empty {s : String} {c : Char} {rest : List Char}
    (h : s.data = c :: rest) : s ≠ "" := by
  intro he
  rw [he] at h
  simp [strData_empty] at h

/-- A chunk whose first character is neither a digit nor `]` cannot
complete an index pattern begun to its left. -/
def headFree (b : List Char) : Prop :=
  match b with
  | [] => True
  | c :: _ => ¬c.isDigit ∧ c ≠ ']'

theorem dropIdxRest_append {b : List Char} (hb : headFree b) :
    ∀ r, dropIdxRest (r ++ b) = (dropIdxRest r).map (· ++ b) := by
  intro r
  induction r with
  | nil =>
      simp [dropIdxRest]
      cases b with
      | nil => simp [dropIdxRest]
      | cons c cs =>
          obtain ⟨h1, h2⟩ := hb
          simp [dropIdxRest, h1, h2]
  | cons c cs ih =>
      by_cases hc : c = ']'
      · simp [dropIdxRest, hc]
      · by_cases hd : c.isDigit
        · simp [dropIdxRest, hc, hd, ih]
        · simp [dropIdxRest, hc, hd]

theorem dropIdx_append {b : List Char} (hb : headFree b) :
    ∀ r, dropIdx (r ++ b) = (dropIdx r).map (· ++ b) := by
  intro r
  cases r with
  | nil =>
      simp [dropIdx]
      cases b with
      | nil => simp [dropIdx]
      | cons c cs =>
          obtain ⟨h1, _⟩ := hb
          simp [dropIdx, h1]
  | cons c cs =>
      by_cases hd : c.isDigit
      · simp [dropIdx, hd, dropIdxRest_append hb]
      · simp [dropIdx, hd]

theorem idxSubAux_nil : idxSubAux [] = [] := by simp [idxSubAux]

theorem idxSubAux_cons_ne {c : Char} (h : c ≠ '[') (cs : List Char) :
    idxSubAux (c :: cs) = c :: idxSubAux cs := by
  rw [idxSubAux]
  simp [h]

theorem idxSubAux_append {b : List Char} (hb : headFree b) :
    ∀ a, idxSubAux (a ++ b) = idxSubAux a ++ idxSubAux b := by
  suffices H : ∀ (n : Nat) (a : List Char), a.length ≤ n →
      idxSubAux (a ++ b) = idxSubAux a ++ idxSubAux b from
    fun a => H a.length a le_rfl
  intro n
  induction n with
  | zero =>
      intro a ha
      have : a = [] := List.length_eq_zero.mp (Nat.le_zero.mp ha)
      subst this
      simp [idxSubAux_nil]
  | succ n ih =>
      intro a ha
      cases a with
      | nil => simp [idxSubAux_nil]
      | cons c cs =>
          simp only [List.length_cons] at ha
          by_cases hc : c = '['
          · subst hc
            rw [List.cons_append, idxSubAux, idxSubAux]
            rw [dropIdx_append hb cs]
            cases hdi : dropIdx cs with
            | none => simp [ih cs (by omega)]
            | some rest =>
                simp only [Option.map_some, if_pos rfl]
                have hlt := dropIdx_length cs rest hdi
                exact ih rest (by omega)
          · rw [List.cons_append, idxSubAux_cons_ne hc, idxSubAux_cons_ne hc]
            simp [ih cs (by omega)]

theorem idxSub_append {a b : String} (hb : headFree b.data) :
    idxSub (a ++ b) = idxSub a ++ idxSub b := by
  apply strext
  simp only [idxSub, strData_append]
  exact idxSubAux_append hb a.data

theorem idxSub_head {s : String} {c : Char} {rest : List Char}
    (h : s.data = c :: rest) (hc : c ≠ '[') :
    (idxSub s).data = c :: idxSubAux rest := by
  simp only [idxSub, h, idxSubAux_cons_ne hc]

/-- A path whose first character is not `s` does not start with `spec.`. -/
theorem startsw_spec_false {s : String} {c : Char} {rest : List Char}
    (h : s.data = c :: rest) (hc : c ≠ 's') : startsw s "spec." = false := by
  simp only [startsw, h]
  show List.isPrefixOf ('s' :: _) _ = false
  simp [List.isPrefixOf]
  intro hh
  exact absurd hh.symm hc

/-! ### Association list and size lemmas -/

theorem sizeOf_mem_kvs {kvs : List (String × Yaml)} {k : String} {x : Yaml}
    (h : (k, x) ∈ kvs) : sizeOf x < sizeOf kvs := by
  induction kvs with
  | nil => simp at h
  | cons p rest ih =>
      rcases List.mem_cons.mp h with h1 | h1
      · obtain ⟨a, b⟩ := p
        injection h1 with e1 e2
        subst e2
        simp
        omega
      · have := ih h1
        obtain ⟨a, b⟩ := p
        simp
        omega

theorem sizeOf_mem_list {xs : List Yaml} {x : Yaml} (h : x ∈ xs) : sizeOf x < sizeOf xs := by
  induction xs with
  | nil => simp at h
  | cons a rest ih =>
      rcases List.mem_cons.mp h with h1 | h1
      · subst h1; simp; omega
      · have := ih h1
        simp
        omega

theorem getK_some_mem {l : List (String × Yaml)} {key : String} {v : Yaml}
    (h : Yaml.getK l key = some v) : (key, v) ∈ l := by
  induction l with
  | nil => simp [Yaml.getK] at h
  | cons p rest ih =>
      obtain ⟨k, w⟩ := p
      simp only [Yaml.getK] at h
      by_cases hk : k = key
      · simp [hk] at h
        subst hk h
        simp
      · simp [hk] at h
        exact List.mem_cons_of_mem _ (ih h)

theorem getK_none_of {l : List (String × Yaml)} {key : String}
    (h : ∀ p ∈ l, p.1 ≠ key) : Yaml.getK l key = none := by
  induction l with
  | nil => simp [Yaml.getK]
  | cons p rest ih =>
      obtain ⟨k, w⟩ := p
      have hk : k ≠ key := h (k, w) (by simp)
      simp only [Yaml.getK, if_neg hk]
      exact ih (fun q hq => h q (List.mem_cons_of_mem _ hq))

theorem getK_setK_self (l : List (String × Yaml)) (key : String) (v : Yaml) :
    Yaml.getK (Yaml.setK l key v) key = some v := by
  induction l with
  | nil => simp [Yaml.setK, Yaml.getK]
  | cons p rest ih =>
      obtain ⟨k, w⟩ := p
      by_cases hk : k = key
      · simp [Yaml.setK, hk, Yaml.getK]
      · simp [Yaml.setK, hk, Yaml.getK, ih]

theorem getK_setK_ne {l : List (String × Yaml)} {k2 key : String} (v : Yaml)
    (h : k2 ≠ key) : Yaml.getK (Yaml.setK l k2 v) key = Yaml.getK l key := by
  induction l with
  | nil => simp [Yaml.setK, Yaml.getK, h]
  | cons p rest ih =>
      obtain ⟨k, w⟩ := p
      by_cases hk : k = k2
      · subst hk
        simp [Yaml.setK, Yaml.getK, h, ih]
      · simp [Yaml.setK, hk, Yaml.getK]
        by_cases hk2 : k = key
        · simp [hk2]
        · simp [hk2, ih]

theorem getK_popK_ne {l : List (String × Yaml)} {k2 key : String}
    (h : k2 ≠ key) : Yaml.getK (Yaml.popK l k2) key = Yaml.getK l key := by
  induction l with
  | nil => simp [Yaml.popK, Yaml.getK]
  | cons p rest ih =>
      obtain ⟨k, w⟩ := p
      by_cases hk : k = k2
      · subst hk
        simp [Yaml.popK, Yaml.getK, h]
      · simp [Yaml.popK, hk, Yaml.getK]
        by_cases hk2 : k = key
        · simp [hk2]
        · simp [hk2, ih]

theorem setK_self {l : List (String × Yaml)} {key : String} {v : Yaml}
    (h : Yaml.getK l key = some v) : Yaml.setK l key v = l := by
  induction l with
  | nil => simp [Yaml.getK] at h
  | cons p rest ih =>
      obtain ⟨k, w⟩ := p
      simp only [Yaml.getK] at h
      by_cases hk : k = key
      · simp [hk] at h
        subst hk h
        simp [Yaml.setK]
      · simp [hk] at h
        simp [Yaml.setK, hk, ih h]

theorem getK_filter {l : List (String × Yaml)} {key : String} {pred : String × Yaml → Bool}
    (h : ∀ v : Yaml, pred (key, v) = true) :
    Yaml.getK (l.filter pred) key = Yaml.getK l key := by
  induction l with
  | nil => simp [Yaml.getK]
  | cons p rest ih =>
      obtain ⟨k, w⟩ := p
      by_cases hk : k = key
      · subst hk
        simp [List.filter, h w, Yaml.getK, ih]
      · cases hp : pred (k, w) with
        | true => simp [List.filter, hp, Yaml.getK, hk, ih]
        | false => simp [List.filter, hp, Yaml.getK, hk, ih]

/-! ### Walk unfolding and preservation lemmas -/

theorem walkY_map (al : List String) (d : String) (kvs : List (String × Yaml)) :
    walkY al d (.map kvs) = (.map (walkKVs al d kvs).1, (walkKVs al d kvs).2) := by
  simp [walkY]

theorem walkY_arr (al : List String) (d : String) (xs : List Yaml) :
    walkY al d (.arr xs) = (.arr (walkArr al d 0 xs).1, (walkArr al d 0 xs).2) := by
  simp [walkY]

theorem walkY_null (al : List String) (d : String) : walkY al d .null = (.null, []) := by
  simp [walkY]

theorem walkY_bool (al : List String) (d : String) (b : Bool) :
    walkY al d (.bool b) = (.bool b, []) := by simp [walkY]

theorem walkY_int (al : List String) (d : String) (n : Int) :
    walkY al d (.int n) = (.int n, []) := by simp [walkY]

theorem walkY_str (al : List String) (d : String) (s : String) :
    walkY al d (.str s) = (.str s, []) := by simp [walkY]

theorem walkKVs_nil (al : List String) (d : String) : walkKVs al d [] = ([], []) := by
  simp [walkKVs]

theorem walkKVs_append (al : List String) (d : String) :
    ∀ l1 l2, walkKVs al d (l1 ++ l2) =
      ((walkKVs al d l1).1 ++ (walkKVs al d l2).1,
       (walkKVs al d l1).2 ++ (walkKVs al d l2).2) := by
  intro l1 l2
  induction l1 with
  | nil => simp [walkKVs_nil]
  | cons p rest ih =>
      obtain ⟨k, v⟩ := p
      rw [List.cons_append]
      cases hcond : (startsw (idxSub (if d = "" then k else d ++ "." ++ k)) "spec." &&
          !(al.contains (idxSub (if d = "" then k else d ++ "." ++ k)))) with
      | true => simp only [walkKVs, hcond]; simp [ih]
      | false => simp only [walkKVs, hcond]; simp [ih]

/-- Elementwise no-op implies the mapping walk is a no-op. -/
theorem walkKVs_skip_all (al : List String) (dotted : String) :
    ∀ kvs : List (String × Yaml),
    (∀ k w, (k, w) ∈ kvs →
      startsw (idxSub (if dotted = "" then k else dotted ++ "." ++ k)) "spec." = false) →
    (∀ k w, (k, w) ∈ kvs →
      walkY al (if dotted = "" then k else dotted ++ "." ++ k) w = (w, [])) →
    walkKVs al dotted kvs = (kvs, []) := by
  intro kvs
  induction kvs with
  | nil => intro _ _; simp [walkKVs_nil]
  | cons p rest ih =>
      intro h1 h2
      obtain ⟨k, w⟩ := p
      have hs := h1 k w (by simp)
      have hw := h2 k w (by simp)
      simp only [walkKVs, hs, Bool.false_and, if_neg (by simp : ¬(false = true)), hw]
      have := ih (fun k2 w2 hm => h1 k2 w2 (List.mem_cons_of_mem _ hm))
        (fun k2 w2 hm => h2 k2 w2 (List.mem_cons_of_mem _ hm))
      simp [this]

/-- Elementwise no-op implies the sequence walk is a no-op. -/
theorem walkArr_skip_all (al : List String) (dotted : String) :
    ∀ (xs : List Yaml) (i : Nat),
    (∀ (x : Yaml) (j : Nat), x ∈ xs →
      walkY al (dotted ++ "[" ++ toString j ++ "]") x = (x, [])) →
    walkArr al dotted i xs = (xs, []) := by
  intro xs
  induction xs with
  | nil => intro i _; simp [walkArr]
  | cons x rest ih =>
      intro i h
      have hx := h x i (by simp)
      simp only [walkArr, hx]
      have := ih (i + 1) (fun y j hm => h y j (List.mem_cons_of_mem _ hm))
      simp [this]

/-- The walk never touches a subtree whose dotted path starts with a
character other than `[` and `s`: every path below it keeps that first
character after index stripping, so it cannot start with `spec.`. -/
theorem walk_skip : ∀ (n : Nat) (v : Yaml), sizeOf v ≤ n →
    ∀ (al : List String) (dotted : String) (c : Char) (rest : List Char),
    dotted.data = c :: rest → c ≠ '[' → c ≠ 's' →
    walkY al dotted v = (v, []) := by
  intro n
  induction n with
  | zero =>
      intro v hle
      have := yamlSizeOf_pos v
      omega
  | succ n ih =>
      intro v hle al dotted c rest hd hc hs
      cases v with
      | null => exact walkY_null al dotted
      | bool b => exact walkY_bool al dotted b
      | int m => exact walkY_int al dotted m
      | str s => exact walkY_str al dotted s
      | map kvs =>
          rw [walkY_map]
          have hne : dotted ≠ "" := str_ne_empty hd
          have hkvs : walkKVs al dotted kvs = (kvs, []) := by
            apply walkKVs_skip_all
            · intro k w _
              rw [if_neg hne]
              have hdd : (dotted ++ "." ++ k).data = c :: (rest ++ ('.' :: k.data)) := by
                simp [strData_append, hd]
              exact startsw_spec_false (idxSub_head hdd hc) hs
            · intro k w hm
              rw [if_neg hne]
              have hsz : sizeOf w ≤ n := by
                have h1 := sizeOf_mem_kvs hm
                simp at hle
                omega
              have hdd : (dotted ++ "." ++ k).data = c :: (rest ++ ('.' :: k.data)) := by
                simp [strData_append, hd]
              exact ih w hsz al _ c _ hdd hc hs
          simp [hkvs]
      | arr xs =>
          rw [walkY_arr]
          have hxs : walkArr al dotted 0 xs = (xs, []) := by
            apply walkArr_skip_all
            intro x j hm
            have hsz : sizeOf x ≤ n := by
              have h1 := sizeOf_mem_list hm
              simp at hle
              omega
            have hdd : (dotted ++ "[" ++ toString j ++ "]").data =
                c :: (rest ++ ('[' :: ((toString j).data ++ [']']))) := by
              simp [strData_append, hd]
            exact ih x hsz al _ c _ hdd hc hs
          simp [hxs]

theorem walkKVs_nil_id (al : List String) (dotted : String) :
    ∀ kvs : List (String × Yaml),
    (∀ k w, (k, w) ∈ kvs → ∀ d2 : String,
      (walkY al d2 w).2 = [] → (walkY al d2 w).1 = w) →
    (walkKVs al dotted kvs).2 = [] → (walkKVs al dotted kvs).1 = kvs := by
  intro kvs
  induction kvs with
  | nil => intro _ _; simp [walkKVs_nil]
  | cons p rest ih =>
      intro hel h2
      obtain ⟨k, w⟩ := p
      by_cases hcond : (startsw (idxSub (if dotted = "" then k else dotted ++ "." ++ k)) "spec." &&
          !(al.contains (idxSub (if dotted = "" then k else dotted ++ "." ++ k)))) = true
      · rw [walkKVs] at h2
        simp only [hcond, if_pos] at h2
        simp at h2
      · rw [walkKVs] at h2 ⊢
        simp only [eq_false_of_ne_true hcond, Bool.false_eq_true, if_false] at h2 ⊢
        simp only [List.append_eq_nil] at h2
        obtain ⟨ha, hb⟩ := h2
        have h3 := hel k w (by simp) _ ha
        have h4 := ih (fun k2 w2 hm => hel k2 w2 (List.mem_cons_of_mem _ hm)) hb
        simp [h3, h4]

theorem walkArr_nil_id (al : List String) (dotted : String) :
    ∀ (xs : List Yaml) (i : Nat),
    (∀ x, x ∈ xs → ∀ d2 : String,
      (walkY al d2 x).2 = [] → (walkY al d2 x).1 = x) →
    (walkArr al dotted i xs).2 = [] → (walkArr al dotted i xs).1 = xs := by
  intro xs
  induction xs with
  | nil => intro i _ _; simp [walkArr]
  | cons x rest ih =>
      intro i hel h2
      rw [walkArr] at h2 ⊢
      simp only [List.append_eq_nil] at h2
      obtain ⟨ha, hb⟩ := h2
      have h3 := hel x (by simp) _ ha
      have h4 := ih (i + 1) (fun y hm => hel y (List.mem_cons_of_mem _ hm)) hb
      simp [h3, h4]

/-- When the walk records nothing it also changes nothing. -/
theorem walk_nil_id : ∀ (n : Nat) (v : Yaml), sizeOf v ≤ n →
    ∀ (al : List String) (dotted : String),
    (walkY al dotted v).2 = [] → (walkY al dotted v).1 = v := by
  intro n
  induction n with
  | zero =>
      intro v hle
      have := yamlSizeOf_pos v
      omega
  | succ n ih =>
      intro v hle al dotted
      cases v with
      | null => simp [walkY_null]
      | bool b => simp [walkY_bool]
      | int m => simp [walkY_int]
      | str s => simp [walkY_str]
      | map kvs =>
          rw [walkY_map]
          intro h2
          simp only at h2 ⊢
          have := walkKVs_nil_id al dotted kvs
            (fun k w hm d2 => by
              have hsz : sizeOf w ≤ n := by
                have h1 := sizeOf_mem_kvs hm
                simp at hle
                omega
              exact ih w hsz al d2) h2
          simp [this]
      | arr xs =>
          rw [walkY_arr]
          intro h2
          simp only at h2 ⊢
          have := walkArr_nil_id al dotted xs 0
            (fun x hm d2 => by
              have hsz : sizeOf x ≤ n := by
                have h1 := sizeOf_mem_list hm
                simp at hle
                omega
              exact ih x hsz al d2) h2
          simp [this]

/-! ## Concrete fixtures shared by the claims -/

/-- Occurrence of `needle` at any position of the character list. -/
def isSubChunk (needle : List Char) : List Char → Bool
  | [] => needle.isEmpty
  | c :: rest => needle.isPrefixOf (c :: rest) || isSubChunk needle rest

/-- Python `needle in hay` for strings (substring test). -/
def containsSub (hay needle : String) : Bool := isSubChunk needle.data hay.data

/-- A spec schema whose `meta` object preserves unknown fields, so the
collector emits the wildcard entry `spec.meta.*`. -/
def specMetaSchema : Yaml :=
  .map [("type", .str "object"),
        ("properties", .map [("meta", .map [("type", .str "object"),
          ("x-kubernetes-preserve-unknown-fields", .bool true)])])]

def fullSchemaC1 : Yaml :=
  .map [("type", .str "object"),
        ("properties", .map [("spec", specMetaSchema)])]

def regC1 : Registry := registerSchema emptyRegistry "g/v1" "Foo" fullSchemaC1

def docC1 : Yaml :=
  .map [("apiVersion", .str "g/v1"), ("kind", .str "Foo"),
        ("spec", .map [("meta", .map [("anything", .map [("else", .int 1)])])])]

/-- The end-to-end example type of spec §8: `Foo` with `spec.replicas`. -/
def fooSchema : Yaml :=
  .map [("type", .str "object"),
        ("properties", .map [("spec", .map [("type", .str "object"),
          ("properties", .map [("replicas", .map [("type", .str "integer")])])])])]

def regFoo : Registry := registerSchema emptyRegistry "g/v1" "Foo" fooSchema

def docBogus : Yaml :=
  .map [("apiVersion", .str "g/v1"), ("kind", .str "Foo"),
        ("spec", .map [("replicas", .int 3), ("bogus", .bool true)])]

def cleanedBogus : Yaml :=
  .map [("apiVersion", .str "g/v1"), ("kind", .str "Foo"),
        ("spec", .map [("replicas", .int 3)])]

/-! ## Claims -/

/-- C1: the spec claims a wildcard entry `spec.meta.*` in the allow set
keeps every document path strictly below `spec.meta`.  The code checks
only exact set membership (`clean not in allowed`), so even though
registration stores the wildcard entry, the walk removes
`spec.meta.anything` (recording its normalized path) instead of keeping
it: the wildcard entries produced by `_collect_paths` for
`x-kubernetes-preserve-unknown-fields` are dead letters to the pruner. -/
theorem c1_wildcard_not_honored :
    lookupP regC1.allowed ("g/v1", "Foo") = some ["spec.meta", "spec.meta.*"] ∧
    pruneData regC1 docC1 =
      .ok (.map [("apiVersion", .str "g/v1"), ("kind", .str "Foo"),
        ("spec", .map [("meta", .map [])])], ["spec.meta.anything"], []) := by
  constructor
  · simp [regC1, registerSchema, fullSchemaC1, specMetaSchema, emptyRegistry, setP,
      lookupP, lookupS, propsOf, asMapD, Yaml.orElse, Yaml.truthy, Yaml.getK,
      collectPs, collectComb, collectList, collectProps, fieldOr]
  · simp [pruneData, regC1, registerSchema, fullSchemaC1, specMetaSchema, docC1,
      emptyRegistry, setP, lookupP, lookupS, propsOf, asMapD, Yaml.orElse, Yaml.truthy,
      Yaml.getK, collectPs, collectComb, collectList, collectProps, fieldOr, keyOf,
      walkY, walkKVs, walkArr, idxSub, idxSubAux, dropIdx, dropIdxRest, startsw,
      pruneMetaStage, annStep, pruneTopStage, Yaml.setK, Yaml.popK,
      ALLOWED_META_ANNOTATIONS, ALLOWED_META_LABELS]

/-- C8: for the §8 array schema, the collector with base `spec` returns
exactly `spec.rules` and `spec.rules.name`: recursing through `items`
keeps the same base, so no index segment ever appears. -/
theorem c8_collect_rules_paths :
    ∀ p : String,
      p ∈ collectPs (.map [("type", .str "object"),
        ("properties", .map [("rules", .map [("type", .str "array"),
          ("items", .map [("type", .str "object"),
            ("properties", .map [("name", .map [("type", .str "string")])])])])])])
        "spec" ↔ (p = "spec.rules" ∨ p = "spec.rules.name") := by
  intro p
  have h : collectPs (.map [("type", .str "object"),
      ("properties", .map [("rules", .map [("type", .str "array"),
        ("items", .map [("type", .str "object"),
          ("properties", .map [("name", .map [("type", .str "string")])])])])])])
      "spec" = ["spec.rules", "spec.rules.name"] := by
    simp [collectPs, collectComb, collectList, collectProps, propsOf, fieldOr,
      asMapD, Yaml.getK, Yaml.orElse, Yaml.truthy]
  rw [h]
  simp

/-- C2 counterexample: refresh is clear-then-refill, not all-or-nothing.
With a non-empty previously-served snapshot, a failing directory-listing
fetch leaves all four tables empty, not equal to the previous snapshot. -/
theorem c2_refresh_clears_on_failure :
    refreshDiscovery regFoo (.error "boom") (fun _ => .ok []) =
      (emptyRegistry, .error (.http 500 "refresh failed: boom")) ∧
    regFoo ≠ emptyRegistry := by
  constructor
  · rfl
  · intro h
    have h2 := congrArg Registry.full_schema h
    simp [regFoo, registerSchema, emptyRegistry, setP] at h2

/-- C2 amended: when the fetch of the schema source fails (modelled by a
failing directory listing), the four registry tables afterwards are empty
whatever the previous snapshot held: both `refresh_discovery` and
`DiscoveryCache.refresh` clear the live tables before fetching, so the
previously-served snapshot is destroyed rather than preserved. -/
theorem c2_amended_refresh_clears (prior : Registry) (e : String)
    (fetch : String → Except String (List Yaml)) :
    refreshDiscovery prior (.error e) fetch =
      (emptyRegistry, .error (.http 500 ("refresh failed: " ++ e))) := rfl

/-- C3 counterexample: on a document with one bogus spec field the prune
endpoint raises 422, and the failure detail is exactly the removal
listing; the cleaned document text (computed by `_prune` and then
discarded by the endpoint) is not contained in the detail. -/
theorem c3_detail_lacks_cleaned :
    pruneEndpoint regFoo (.ok docBogus) =
      .error (.http 422 "Unsupported fields stripped:\n- spec.bogus") ∧
    dumpYaml cleanedBogus = "apiVersion: g/v1\nkind: Foo\nspec:\n  replicas: 3\n" ∧
    containsSub "Unsupported fields stripped:\n- spec.bogus"
      (dumpYaml cleanedBogus) = false := by
  refine ⟨?_, ?_, ?_⟩
  · simp [pruneEndpoint, pruneData, regFoo, registerSchema, fooSchema, docBogus,
      emptyRegistry, setP, lookupP, lookupS, propsOf, asMapD, Yaml.orElse, Yaml.truthy,
      Yaml.getK, collectPs, collectComb, collectList, collectProps, fieldOr, keyOf,
      walkY, walkKVs, walkArr, idxSub, idxSubAux, dropIdx, dropIdxRest, startsw,
      pruneMetaStage, annStep, pruneTopStage, Yaml.setK, Yaml.popK,
      ALLOWED_META_ANNOTATIONS, ALLOWED_META_LABELS, String.intercalate]
    decide
  · simp [dumpYaml, dumpLines, dumpMapLines, dumpArrLines, cleanedBogus,
      String.intercalate]
    decide
  · have h : dumpYaml cleanedBogus =
        "apiVersion: g/v1\nkind: Foo\nspec:\n  replicas: 3\n" := by
      simp [dumpYaml, dumpLines, dumpMapLines, dumpArrLines, cleanedBogus,
        String.intercalate]
      decide
    rw [h]
    decide

/-- C3 amended: a non-empty removal list is surfaced as HTTP 422 whose
detail lists exactly the removed paths (joined by newline and dash); the
cleaned document, though computed by `_prune`, is not attached to the
failure. -/
theorem c3_amended_422_lists_removed (reg : Registry) (v c : Yaml) (rs rt : List String)
    (h1 : pruneData reg v = .ok (c, rs, rt)) (h2 : rs ++ rt ≠ []) :
    pruneEndpoint reg (.ok v) = .error (.http 422
      ("Unsupported fields stripped:\n- " ++ String.intercalate "\n- " (rs ++ rt))) := by
  simp only [pruneEndpoint, h1]
  have h3 : (rs ++ rt).isEmpty = false := by
    cases hx : rs ++ rt with
    | nil => exact absurd hx h2
    | cons a l => simp
  simp [h3]

/-- Witness for C3 amended at the §8 example document. -/
theorem c3_amended_witness :
    pruneData regFoo docBogus = .ok (cleanedBogus, ["spec.bogus"], []) ∧
    pruneEndpoint regFoo (.ok docBogus) =
      .error (.http 422 "Unsupported fields stripped:\n- spec.bogus") := by
  have h1 : pruneData regFoo docBogus = .ok (cleanedBogus, ["spec.bogus"], []) := by
    simp [pruneData, regFoo, registerSchema, fooSchema, docBogus, cleanedBogus,
      emptyRegistry, setP, lookupP, lookupS, propsOf, asMapD, Yaml.orElse, Yaml.truthy,
      Yaml.getK, collectPs, collectComb, collectList, collectProps, fieldOr, keyOf,
      walkY, walkKVs, walkArr, idxSub, idxSubAux, dropIdx, dropIdxRest, startsw,
      pruneMetaStage, annStep, pruneTopStage, Yaml.setK, Yaml.popK,
      ALLOWED_META_ANNOTATIONS, ALLOWED_META_LABELS]
  refine ⟨h1, ?_⟩
  have h2 := c3_amended_422_lists_removed regFoo docBogus cleanedBogus ["spec.bogus"] []
    h1 (by simp)
  have h3 : "Unsupported fields stripped:\n- " ++
      String.intercalate "\n- " (["spec.bogus"] ++ []) =
      "Unsupported fields stripped:\n- spec.bogus" := by decide
  rw [h3] at h2
  exact h2

/-- C5: the claim says validate never raises.  A document whose top level
is a non-empty YAML sequence parses, is truthy, and is not a mapping;
inside `_prune`, `data.get("apiVersion")` then raises AttributeError,
which is not an HTTPException, so `validate` propagates it instead of
returning a verdict (FastAPI turns it into a 500). -/
theorem c5_validate_crashes_on_sequence :
    validateEndpoint emptyRegistry (.ok (.arr [.int 1])) =
      .error (.py "AttributeError: list object has no attribute get") := by
  simp [validateEndpoint, pruneData, Yaml.orElse, Yaml.truthy, Yaml.pyType, emptyRegistry]

/-! ### C4: what the walk records

`walkSpecY` below is modelled from the spec (§4.3): identical to the
source walk except that it records the *original* (non-normalized) path
`here` instead of the normalized `clean`.  The refinement theorem shows
the source records exactly the normalized image of those paths. -/

mutual

def walkSpecY (al : List String) (dotted : String) : Yaml → Yaml × List String
  | .map kvs =>
      let r := walkSpecKVs al dotted kvs
      (.map r.1, r.2)
  | .arr xs =>
      let r := walkSpecArr al dotted 0 xs
      (.arr r.1, r.2)
  | v => (v, [])

def walkSpecKVs (al : List String) (dotted : String) :
    List (String × Yaml) → List (String × Yaml) × List String
  | [] => ([], [])
  | (k, v) :: rest =>
      let here := if dotted = "" then k else dotted ++ "." ++ k
      let clean := idxSub here
      if startsw clean "spec." && !(al.contains clean) then
        let r := walkSpecKVs al dotted rest
        (r.1, here :: r.2)
      else
        let rv := walkSpecY al here v
        let r := walkSpecKVs al dotted rest
        ((k, rv.1) :: r.1, rv.2 ++ r.2)

def walkSpecArr (al : List String) (dotted : String) (i : Nat) :
    List Yaml → List Yaml × List String
  | [] => ([], [])
  | x :: rest =>
      let rx := walkSpecY al (dotted ++ "[" ++ toString i ++ "]") x
      let r := walkSpecArr al dotted (i + 1) rest
      (rx.1 :: r.1, rx.2 ++ r.2)

end

theorem walkSpecKVs_refine (al : List String) :
    ∀ (kvs : List (String × Yaml)) (dotted : String),
    (∀ k w, (k, w) ∈ kvs → ∀ d2 : String,
      walkY al d2 w = ((walkSpecY al d2 w).1, (walkSpecY al d2 w).2.map idxSub)) →
    walkKVs al dotted kvs =
      ((walkSpecKVs al dotted kvs).1, (walkSpecKVs al dotted kvs).2.map idxSub) := by
  intro kvs
  induction kvs with
  | nil => intro _ _; simp [walkKVs_nil, walkSpecKVs]
  | cons p rest ih =>
      intro dotted hel
      obtain ⟨k, w⟩ := p
      have hr := ih dotted (fun k2 w2 hm => hel k2 w2 (List.mem_cons_of_mem _ hm))
      have hw := hel k w (by simp) (if dotted = "" then k else dotted ++ "." ++ k)
      cases hcond : (startsw (idxSub (if dotted = "" then k else dotted ++ "." ++ k)) "spec." &&
          !(al.contains (idxSub (if dotted = "" then k else dotted ++ "." ++ k)))) with
      | true =>
          simp only [walkKVs, walkSpecKVs, hcond]
          simp [hr]
      | false =>
          simp only [walkKVs, walkSpecKVs, hcond]
          simp [hr, hw]

theorem walkSpecArr_refine (al : List String) :
    ∀ (xs : List Yaml) (dotted : String) (i : Nat),
    (∀ x, x ∈ xs → ∀ d2 : String,
      walkY al d2 x = ((walkSpecY al d2 x).1, (walkSpecY al d2 x).2.map idxSub)) →
    walkArr al dotted i xs =
      ((walkSpecArr al dotted i xs).1, (walkSpecArr al dotted i xs).2.map idxSub) := by
  intro xs
  induction xs with
  | nil => intro _ _ _; simp [walkArr, walkSpecArr]
  | cons x rest ih =>
      intro dotted i hel
      have hr := ih dotted (i + 1) (fun y hm => hel y (List.mem_cons_of_mem _ hm))
      have hx := hel x (by simp) (dotted ++ "[" ++ toString i ++ "]")
      simp only [walkArr, walkSpecArr]
      simp [hr, hx]

/-- C4 amended: the source walk is the spec walk with every recorded path
passed through index normalization: the removed-spec list of `_prune` is
the image under `_IDX.sub("", ·)` of the original document paths, not the
original paths themselves. -/
theorem c4_amended_records_normalized (al : List String) (dotted : String) :
    ∀ (n : Nat) (v : Yaml), sizeOf v ≤ n →
    walkY al dotted v = ((walkSpecY al dotted v).1, (walkSpecY al dotted v).2.map idxSub) := by
  suffices H : ∀ (n : Nat) (v : Yaml), sizeOf v ≤ n → ∀ d2 : String,
      walkY al d2 v = ((walkSpecY al d2 v).1, (walkSpecY al d2 v).2.map idxSub) from
    fun n v h => H n v h dotted
  intro n
  induction n with
  | zero =>
      intro v hle
      have := yamlSizeOf_pos v
      omega
  | succ n ih =>
      intro v hle d2
      cases v with
      | null => simp [walkY_null, walkSpecY]
      | bool b => simp [walkY_bool, walkSpecY]
      | int m => simp [walkY_int, walkSpecY]
      | str s => simp [walkY_str, walkSpecY]
      | map kvs =>
          rw [walkY_map]
          have h2 := walkSpecKVs_refine al kvs d2 (fun k w hm d3 => by
            have hsz : sizeOf w ≤ n := by
              have h1 := sizeOf_mem_kvs hm
              simp at hle
              omega
            exact ih w hsz d3)
          simp [h2, walkSpecY]
      | arr xs =>
          rw [walkY_arr]
          have h2 := walkSpecArr_refine al xs d2 0 (fun x hm d3 => by
            have hsz : sizeOf x ≤ n := by
              have h1 := sizeOf_mem_list hm
              simp at hle
              omega
            exact ih x hsz d3)
          simp [h2, walkSpecY]

/-- C4 counterexample: with allow set `{spec.rules}` and the document
`spec: {rules: [{name: x}]}`, the entry recorded for the removed key is
the normalized `spec.rules.name`, not the original `spec.rules[0].name`
that the claim promises. -/
theorem c4_counterexample_normalized_recorded :
    (walkY ["spec.rules"] ""
      (.map [("spec", .map [("rules", .arr [.map [("name", .str "x")]])])])).2 =
      ["spec.rules.name"] ∧
    ("spec.rules[0].name" : String) ∉
      (walkY ["spec.rules"] ""
        (.map [("spec", .map [("rules", .arr [.map [("name", .str "x")]])])])).2 := by
  have h : (walkY ["spec.rules"] ""
      (.map [("spec", .map [("rules", .arr [.map [("name", .str "x")]])])])).2 =
      ["spec.rules.name"] := by
    have ht : toString (0 : Nat) = "0" := rfl
    simp [ht, walkY, walkKVs, walkArr, idxSub, idxSubAux, dropIdx, dropIdxRest, startsw]
  refine ⟨h, ?_⟩
  rw [h]
  decide

/-- C7: prune, skeleton and listAllowedPaths with an unregistered
`(apiVersion, kind)` each fail with a 400 before computing anything:
the endpoints are pure functions of the registry snapshot and the input,
so the failure produces no cleaned output, no removal list and no partial
result, and neither the input document nor any registry table is written. -/
theorem c7_unknown_type (reg : Registry) (api kind : String)
    (kvs : List (String × Yaml))
    (h1 : lookupP reg.full_schema (api, kind) = none)
    (h2 : Yaml.getK kvs "apiVersion" = some (.str api))
    (h3 : Yaml.getK kvs "kind" = some (.str kind)) :
    skeletonEndpoint reg api kind = .error (.http 400 "Unknown apiVersion/kind") ∧
    listSupported reg api kind = .error (.http 400 "Unknown apiVersion/kind") ∧
    pruneData reg (.map kvs) =
      .error (.http 400 (api ++ "/" ++ kind ++ " is not known to the control plane")) := by
  refine ⟨?_, ?_, ?_⟩
  · simp [skeletonEndpoint, h1]
  · simp [listSupported, h1]
  · have hkne : kvs ≠ [] := by
      intro hx
      rw [hx] at h2
      simp [Yaml.getK] at h2
    have htr : Yaml.truthy (.map kvs) = true := by
      simp [Yaml.truthy, hkne]
    simp [pruneData, Yaml.orElse, htr, h2, h3, keyOf, h1, pyStrOpt, pyStr]

/-- Witness for C7 on the empty registry. -/
theorem c7_unknown_type_witness :
    lookupP emptyRegistry.full_schema ("g/v1", "Nope") = none ∧
    (skeletonEndpoint emptyRegistry "g/v1" "Nope" =
        .error (.http 400 "Unknown apiVersion/kind") ∧
      listSupported emptyRegistry "g/v1" "Nope" =
        .error (.http 400 "Unknown apiVersion/kind") ∧
      pruneData emptyRegistry (.map [("apiVersion", .str "g/v1"), ("kind", .str "Nope")]) =
        .error (.http 400 "g/v1/Nope is not known to the control plane")) := by
  refine ⟨rfl, ?_⟩
  have h := c7_unknown_type emptyRegistry "g/v1" "Nope"
    [("apiVersion", .str "g/v1"), ("kind", .str "Nope")] rfl
    (by simp [Yaml.getK]) (by simp [Yaml.getK])
  obtain ⟨a, b, c⟩ := h
  refine ⟨a, b, ?_⟩
  rw [c]
  have : ("g/v1" ++ "/" ++ "Nope" ++ " is not known to the control plane" : String) =
      "g/v1/Nope is not known to the control plane" := by decide
  rw [this]

/-- The silent-drop condition behind the C9 counterexample: the document
has no empty `metadata`, `metadata.annotations` or `metadata.labels`
mapping (those are popped by `_prune` without being recorded). -/
def noSilentMetaDrop (d : Yaml) : Bool :=
  match d with
  | .map kvs =>
      match Yaml.getK kvs "metadata" with
      | none => true
      | some (.map mkvs) =>
          !mkvs.isEmpty &&
          (match Yaml.getK mkvs "annotations" with
           | some (.map akvs) => !akvs.isEmpty
           | _ => true) &&
          (match Yaml.getK mkvs "labels" with
           | some (.map lkvs) => !lkvs.isEmpty
           | _ => true)
      | some _ => true
  | _ => true

/-- With an empty allow set, an annotations/labels step that records
nothing leaves the metadata mapping unchanged (given that the field is not
an empty mapping, which would be popped silently). -/
theorem annStep_nil_id {mkvs : List (String × Yaml)} {field : String}
    (hx : ∀ akvs, Yaml.getK mkvs field = some (.map akvs) → akvs ≠ [])
    (h : (annStep mkvs field []).2 = []) :
    (annStep mkvs field []).1 = mkvs := by
  unfold annStep at h ⊢
  cases ha : Yaml.getK mkvs field with
  | none => simp
  | some av =>
      cases av with
      | map akvs =>
          exfalso
          simp only [ha] at h
          have hg : akvs.filter (fun p => !(([] : List String).contains p.1)) = akvs := by
            apply List.filter_eq_self.mpr
            intro p _
            simp [List.contains]
          by_cases hk : (akvs.filter (fun p => (([] : List String).contains p.1))).isEmpty
          · simp only [hk, if_pos] at h
            rw [hg] at h
            have : akvs = [] := by
              cases akvs with
              | nil => rfl
              | cons a l => simp at h
            exact hx akvs ha this
          · simp only [hk] at h
            rw [hg] at h
            have : akvs = [] := by
              cases akvs with
              | nil => rfl
              | cons a l => simp at h
            exact hx akvs ha this
      | null => simp
      | bool b => simp
      | int n => simp
      | str s2 => simp
      | arr xs => simp

theorem pruneMetaStage_nil_id {kvs : List (String × Yaml)}
    (hns : noSilentMetaDrop (.map kvs) = true)
    (h : (pruneMetaStage kvs).2 = []) : (pruneMetaStage kvs).1 = kvs := by
  unfold pruneMetaStage at h ⊢
  cases hm : Yaml.getK kvs "metadata" with
  | none => simp
  | some m =>
      cases m with
      | map mkvs =>
          simp only [noSilentMetaDrop, hm, Bool.and_eq_true] at hns
          obtain ⟨⟨hne, hann⟩, hlab⟩ := hns
          simp only [hm] at h ⊢
          rw [show ALLOWED_META_ANNOTATIONS = ([] : List String) from rfl,
            show ALLOWED_META_LABELS = ([] : List String) from rfl] at h ⊢
          have hxa : ∀ akvs, Yaml.getK mkvs "annotations" = some (.map akvs) → akvs ≠ [] := by
            intro akvs hga hnil
            rw [hga, hnil] at hann
            simp at hann
          simp only [List.append_eq_nil] at h
          have ha1 : (annStep mkvs "annotations" []).2 = [] := h.1
          have hid1 : (annStep mkvs "annotations" []).1 = mkvs := annStep_nil_id hxa ha1
          rw [hid1] at h ⊢
          have hxl : ∀ lkvs, Yaml.getK mkvs "labels" = some (.map lkvs) → lkvs ≠ [] := by
            intro lkvs hgl hnil
            rw [hgl, hnil] at hlab
            simp at hlab
          have hid2 : (annStep mkvs "labels" []).1 = mkvs := annStep_nil_id hxl h.2
          rw [hid2]
          have hmne : mkvs.isEmpty = false := by
            cases hk : mkvs.isEmpty
            · rfl
            · rw [hk] at hne; simp at hne
          simp only [hmne, Bool.false_eq_true, if_false]
          exact setK_self hm
      | null => simp [hm]
      | bool b => simp [hm]
      | int n => simp [hm]
      | str s2 => simp [hm]
      | arr xs => simp [hm]

theorem pruneTopStage_nil_id {allowedTop : List String} {kvs : List (String × Yaml)}
    (h : (pruneTopStage allowedTop kvs).2 = []) :
    (pruneTopStage allowedTop kvs).1 = kvs := by
  unfold pruneTopStage at h ⊢
  simp only [List.map_eq_nil_iff, List.filter_eq_nil_iff] at h
  apply List.filter_eq_self.mpr
  intro p hp
  have h2 := h p hp
  cases hb : (allowedTop.contains p.1 || ["apiVersion", "kind", "metadata"].contains p.1) with
  | true => rfl
  | false => rw [hb] at h2; simp at h2

/-- C9 amended: when prune succeeds with an empty removal list *and* the
document contains no empty metadata/annotations/labels mapping (which
`_prune` pops without recording), the cleaned tree equals the input, and
pruning the cleaned output again succeeds with an empty removal list. -/
theorem c9_amended_idempotent (reg : Registry) (d c : Yaml)
    (h1 : pruneData reg d = .ok (c, [], []))
    (h2 : noSilentMetaDrop d = true) :
    c = d ∧ pruneData reg c = .ok (c, [], []) := by
  suffices hc : c = d from ⟨hc, by rw [hc]; rw [hc] at h1; exact h1⟩
  cases d with
  | null => simp [pruneData, Yaml.orElse, Yaml.truthy, keyOf, Yaml.getK] at h1
  | bool b =>
      cases b <;> simp [pruneData, Yaml.orElse, Yaml.truthy, keyOf, Yaml.getK] at h1
  | int n =>
      cases hn : (n == 0) <;>
        simp [pruneData, Yaml.orElse, Yaml.truthy, hn, keyOf, Yaml.getK] at h1
  | str s =>
      cases hs : (s == "") <;>
        simp [pruneData, Yaml.orElse, Yaml.truthy, hs, keyOf, Yaml.getK] at h1
  | arr xs =>
      cases hx : xs.isEmpty with
      | true =>
          have : xs = [] := by
            cases xs with
            | nil => rfl
            | cons a l => simp at hx
          subst this
          simp [pruneData, Yaml.orElse, Yaml.truthy, keyOf, Yaml.getK] at h1
      | false =>
          simp [pruneData, Yaml.orElse, Yaml.truthy, hx, keyOf, Yaml.getK] at h1
  | map kvs =>
      have hdata : Yaml.orElse (.map kvs) = .map kvs := by
        cases hk : kvs.isEmpty with
        | false => simp [Yaml.orElse, Yaml.truthy, hk]
        | true =>
            have : kvs = [] := by
              cases kvs with
              | nil => rfl
              | cons a l => simp at hk
            subst this
            simp [Yaml.orElse, Yaml.truthy]
      simp only [pruneData, hdata] at h1
      cases hko : keyOf (Yaml.getK kvs "apiVersion") (Yaml.getK kvs "kind") with
      | none => simp [hko] at h1
      | some key =>
          cases hlf : (lookupP reg.full_schema key).isSome with
          | false => simp [hko, hlf] at h1
          | true =>
              simp only [hko, hlf] at h1
              cases hla : lookupP reg.allowed key with
              | none =>
                  simp only [hla] at h1
                  simp only [Bool.true_eq_false, if_false] at h1
                  simp only [Except.ok.injEq, Prod.mk.injEq] at h1
                  obtain ⟨hcc, _, hmt⟩ := h1
                  rw [List.append_eq_nil] at hmt
                  have hmid : (pruneMetaStage kvs).1 = kvs :=
                    pruneMetaStage_nil_id h2 hmt.1
                  rw [hmid] at hcc hmt
                  have htid : (pruneTopStage ((lookupP reg.top_allowed key).getD [])
                      kvs).1 = kvs := pruneTopStage_nil_id hmt.2
                  rw [htid] at hcc
                  exact hcc.symm
              | some al =>
                  simp only [hla] at h1
                  simp only [Bool.true_eq_false, if_false] at h1
                  rw [walkY_map] at h1
                  cases hw2 : (walkKVs al "" kvs).2 with
                  | cons a l => simp [hw2] at h1
                  | nil =>
                      have hw1 : (walkY al "" (.map kvs)).1 = .map kvs :=
                        walk_nil_id (sizeOf (Yaml.map kvs)) (Yaml.map kvs) le_rfl al ""
                          (by rw [walkY_map]; simpa using hw2)
                      rw [walkY_map] at hw1
                      simp only at hw1
                      have hw1' : (walkKVs al "" kvs).1 = kvs := by
                        injection hw1
                      simp only [hw1', hw2] at h1
                      simp only [Except.ok.injEq, Prod.mk.injEq] at h1
                      obtain ⟨hcc, _, hmt⟩ := h1
                      rw [List.append_eq_nil] at hmt
                      have hmid : (pruneMetaStage kvs).1 = kvs :=
                        pruneMetaStage_nil_id h2 hmt.1
                      rw [hmid] at hcc hmt
                      have htid : (pruneTopStage ((lookupP reg.top_allowed key).getD [])
                          kvs).1 = kvs := pruneTopStage_nil_id hmt.2
                      rw [htid] at hcc
                      exact hcc.symm

/-- Witness for C9 amended at the accepted document of the §8 example. -/
theorem c9_amended_witness :
    pruneData regFoo cleanedBogus = .ok (cleanedBogus, [], []) ∧
    noSilentMetaDrop cleanedBogus = true ∧
    (cleanedBogus = cleanedBogus ∧
      pruneData regFoo cleanedBogus = .ok (cleanedBogus, [], [])) := by
  have ha : pruneData regFoo cleanedBogus = .ok (cleanedBogus, [], []) := by
    simp [pruneData, regFoo, registerSchema, fooSchema, cleanedBogus,
      emptyRegistry, setP, lookupP, lookupS, propsOf, asMapD, Yaml.orElse, Yaml.truthy,
      Yaml.getK, collectPs, collectComb, collectList, collectProps, fieldOr, keyOf,
      walkY, walkKVs, walkArr, idxSub, idxSubAux, dropIdx, dropIdxRest, startsw,
      pruneMetaStage, annStep, pruneTopStage, Yaml.setK, Yaml.popK,
      ALLOWED_META_ANNOTATIONS, ALLOWED_META_LABELS]
  have hb : noSilentMetaDrop cleanedBogus = true := by
    simp [noSilentMetaDrop, cleanedBogus, Yaml.getK]
  exact ⟨ha, hb, c9_amended_idempotent regFoo cleanedBogus cleanedBogus ha hb⟩

/-- C9 counterexample: prune succeeds with an empty removal list on a
document carrying an empty `metadata` mapping, yet the cleaned output is
not equal to the input: the empty mapping was dropped silently. -/
theorem c9_counterexample_metadata_dropped :
    pruneData regFoo (.map [("apiVersion", .str "g/v1"), ("kind", .str "Foo"),
        ("metadata", .map [])]) =
      .ok (.map [("apiVersion", .str "g/v1"), ("kind", .str "Foo")], [], []) ∧
    (Yaml.map [("apiVersion", .str "g/v1"), ("kind", .str "Foo")]) ≠
      (.map [("apiVersion", .str "g/v1"), ("kind", .str "Foo"), ("metadata", .map [])]) := by
  constructor
  · simp [pruneData, regFoo, registerSchema, fooSchema,
      emptyRegistry, setP, lookupP, lookupS, propsOf, asMapD, Yaml.orElse, Yaml.truthy,
      Yaml.getK, collectPs, collectComb, collectList, collectProps, fieldOr, keyOf,
      walkY, walkKVs, walkArr, idxSub, idxSubAux, dropIdx, dropIdxRest, startsw,
      pruneMetaStage, annStep, pruneTopStage, Yaml.setK, Yaml.popK,
      ALLOWED_META_ANNOTATIONS, ALLOWED_META_LABELS]
  · intro h
    have := congrArg (fun v => match v with
      | Yaml.map l => l.length
      | _ => 0) h
    simp at this

/-! ### C10 support: the pruner around non-mapping metadata values -/

theorem getK_ne_nil {l : List (String × Yaml)} {key : String} {v : Yaml}
    (h : Yaml.getK l key = some v) : l ≠ [] := by
  intro hx
  rw [hx] at h
  simp [Yaml.getK] at h

/-- The spec-pruning step of `_prune`: the walk when the type has a
defined allow set, the identity otherwise. -/
def walkOrId (reg : Registry) (key : String × String) (kvs : List (String × Yaml)) :
    List (String × Yaml) × List String :=
  match lookupP reg.allowed key with
  | some al => walkKVs al "" kvs
  | none => (kvs, [])

/-- Closed form of `_prune` on a mapping document of a registered type. -/
theorem pruneData_map_known (reg : Registry) (kvs : List (String × Yaml))
    (a k : String) (sch : Yaml)
    (h1 : Yaml.getK kvs "apiVersion" = some (.str a))
    (h2 : Yaml.getK kvs "kind" = some (.str k))
    (h3 : lookupP reg.full_schema (a, k) = some sch) :
    pruneData reg (.map kvs) =
      Except.ok (.map (pruneTopStage ((lookupP reg.top_allowed (a, k)).getD [])
          (pruneMetaStage (walkOrId reg (a, k) kvs).1).1).1,
        (walkOrId reg (a, k) kvs).2,
        (pruneMetaStage (walkOrId reg (a, k) kvs).1).2 ++
          (pruneTopStage ((lookupP reg.top_allowed (a, k)).getD [])
            (pruneMetaStage (walkOrId reg (a, k) kvs).1).1).2) := by
  have hdata : Yaml.orElse (.map kvs) = .map kvs := by
    have hkne : kvs ≠ [] := getK_ne_nil h1
    simp [Yaml.orElse, Yaml.truthy, hkne]
  have hko : keyOf (Yaml.getK kvs "apiVersion") (Yaml.getK kvs "kind") = some (a, k) := by
    rw [h1, h2]
    rfl
  simp only [pruneData, hdata, hko, h3]
  cases hla : lookupP reg.allowed (a, k) with
  | none => simp [hla, walkOrId]
  | some al => simp [hla, walkOrId, walkY_map]

/-- Root-level step of the walk (`dotted = ""`). -/
theorem walkKVs_cons_root (al : List String) (k : String) (v : Yaml)
    (rest : List (String × Yaml)) :
    walkKVs al "" ((k, v) :: rest) =
      if startsw (idxSub k) "spec." && !(al.contains (idxSub k)) then
        ((walkKVs al "" rest).1, idxSub k :: (walkKVs al "" rest).2)
      else ((k, (walkY al k v).1) :: (walkKVs al "" rest).1,
            (walkY al k v).2 ++ (walkKVs al "" rest).2) := by
  rw [walkKVs]
  simp

/-- The top-level walk never removes the `metadata` binding and leaves its
value untouched. -/
theorem walkKVs_metadata_preserved (al : List String) :
    ∀ kvs : List (String × Yaml),
    Yaml.getK (walkKVs al "" kvs).1 "metadata" = Yaml.getK kvs "metadata" := by
  intro kvs
  induction kvs with
  | nil => simp [walkKVs_nil]
  | cons p rest ih =>
      obtain ⟨k2, w⟩ := p
      rw [walkKVs_cons_root]
      by_cases hk2 : k2 = "metadata"
      · subst hk2
        have hi : idxSub "metadata" = "metadata" := by
          simp [idxSub, idxSubAux, dropIdx, dropIdxRest]
        have hcond : (startsw (idxSub "metadata") "spec." &&
            !(al.contains (idxSub "metadata"))) = false := by
          rw [hi]
          have hx : startsw "metadata" "spec." = false := by decide
          simp [hx]
        rw [hcond]
        simp only [Bool.false_eq_true, if_false]
        have hw : walkY al "metadata" w = (w, []) :=
          walk_skip (sizeOf w) w le_rfl al "metadata" 'm' _ rfl (by decide) (by decide)
        rw [hw]
        simp [Yaml.getK]
      · cases hcond : (startsw (idxSub k2) "spec." && !(al.contains (idxSub k2))) with
        | true =>
            simp only [if_pos]
            simp only [Yaml.getK, if_neg hk2] at ih ⊢
            exact ih
        | false =>
            simp only [Bool.false_eq_true, if_false]
            simp only [Yaml.getK, if_neg hk2]
            exact ih

/-- The metadata section of `_prune` skips a non-mapping `metadata` value:
nothing is changed and nothing is recorded. -/
theorem pruneMetaStage_nonmap {l : List (String × Yaml)} {m : Yaml}
    (h : Yaml.getK l "metadata" = some m) (hm : m.isMap = false) :
    pruneMetaStage l = (l, []) := by
  unfold pruneMetaStage
  rw [h]
  cases m with
  | map mkvs => simp [Yaml.isMap] at hm
  | null => rfl
  | bool b => rfl
  | int n => rfl
  | str s => rfl
  | arr xs => rfl

/-- The annotations/labels block skips a non-mapping value: nothing is
changed and nothing is recorded. -/
theorem annStep_nonmap {mk : List (String × Yaml)} {field : String} {av : Yaml}
    (allowedKeys : List String)
    (h : Yaml.getK mk field = some av) (hm : av.isMap = false) :
    annStep mk field allowedKeys = (mk, []) := by
  unfold annStep
  rw [h]
  cases av with
  | map akvs => simp [Yaml.isMap] at hm
  | null => rfl
  | bool b => rfl
  | int n => rfl
  | str s => rfl
  | arr xs => rfl

/-- The labels block never touches the `annotations` binding. -/
theorem annStep_labels_keeps_ann (mk : List (String × Yaml)) (allowedKeys : List String) :
    Yaml.getK (annStep mk "labels" allowedKeys).1 "annotations" =
      Yaml.getK mk "annotations" := by
  unfold annStep
  cases hl : Yaml.getK mk "labels" with
  | none => rfl
  | some lv =>
      cases lv with
      | map lkvs =>
          simp only
          by_cases hk : (lkvs.filter (fun p => allowedKeys.contains p.1)).isEmpty
          · simp only [hk, if_pos]
            exact getK_popK_ne (by decide)
          · simp only [hk, Bool.false_eq_true, if_false]
            exact getK_setK_ne _ (by decide)
      | null => rfl
      | bool b => rfl
      | int n => rfl
      | str s => rfl
      | arr xs => rfl

/-- The top-level filter keeps the `metadata` binding (it is in `always`). -/
theorem pruneTopStage_metadata (allowedTop : List String) (l : List (String × Yaml)) :
    Yaml.getK (pruneTopStage allowedTop l).1 "metadata" = Yaml.getK l "metadata" := by
  unfold pruneTopStage
  exact getK_filter (fun v => by simp)

/-- Either annotations/labels block leaves every other binding alone. -/
theorem annStep_keeps_other {mk : List (String × Yaml)} {field key : String}
    (allowedKeys : List String) (h : field ≠ key) :
    Yaml.getK (annStep mk field allowedKeys).1 key = Yaml.getK mk key := by
  unfold annStep
  cases hl : Yaml.getK mk field with
  | none => rfl
  | some lv =>
      cases lv with
      | map lkvs =>
          simp only
          by_cases hk : (lkvs.filter (fun p => allowedKeys.contains p.1)).isEmpty
          · simp only [hk, if_pos]
            exact getK_popK_ne h
          · simp only [hk, Bool.false_eq_true, if_false]
            exact getK_setK_ne _ h
      | null => rfl
      | bool b => rfl
      | int n => rfl
      | str s => rfl
      | arr xs => rfl

theorem isEmpty_false_of_getK {l : List (String × Yaml)} {key : String} {v : Yaml}
    (h : Yaml.getK l key = some v) : l.isEmpty = false := by
  cases l with
  | nil => simp [Yaml.getK] at h
  | cons a r => simp

/-- With a non-mapping `annotations` value, the metadata stage keeps the
metadata mapping (possibly with labels processed) and in particular keeps
the `annotations` binding untouched. -/
theorem pruneMetaStage_ann_nonmap {l mkvs : List (String × Yaml)} {av : Yaml}
    (hm : Yaml.getK l "metadata" = some (.map mkvs))
    (ha : Yaml.getK mkvs "annotations" = some av)
    (hav : av.isMap = false) :
    ∃ mk3, (pruneMetaStage l).1 = Yaml.setK l "metadata" (.map mk3) ∧
      Yaml.getK mk3 "annotations" = some av := by
  unfold pruneMetaStage
  rw [hm]
  have h1 : annStep mkvs "annotations" ALLOWED_META_ANNOTATIONS = (mkvs, []) :=
    annStep_nonmap _ ha hav
  have h2 : Yaml.getK (annStep mkvs "labels" ALLOWED_META_LABELS).1 "annotations" =
      some av := by
    rw [annStep_keeps_other _ (by decide)]
    exact ha
  have h3 : (annStep mkvs "labels" ALLOWED_META_LABELS).1.isEmpty = false :=
    isEmpty_false_of_getK h2
  refine ⟨(annStep mkvs "labels" ALLOWED_META_LABELS).1, ?_, h2⟩
  simp only [h1, h3, Bool.false_eq_true, if_false]

/-- With a non-mapping `labels` value, symmetric statement. -/
theorem pruneMetaStage_lab_nonmap {l mkvs : List (String × Yaml)} {lv : Yaml}
    (hm : Yaml.getK l "metadata" = some (.map mkvs))
    (hl : Yaml.getK mkvs "labels" = some lv)
    (hlv : lv.isMap = false) :
    ∃ mk3, (pruneMetaStage l).1 = Yaml.setK l "metadata" (.map mk3) ∧
      Yaml.getK mk3 "labels" = some lv := by
  unfold pruneMetaStage
  rw [hm]
  have h1 : Yaml.getK (annStep mkvs "annotations" ALLOWED_META_ANNOTATIONS).1 "labels" =
      some lv := by
    rw [annStep_keeps_other _ (by decide)]
    exact hl
  have h2 : annStep (annStep mkvs "annotations" ALLOWED_META_ANNOTATIONS).1 "labels"
      ALLOWED_META_LABELS = ((annStep mkvs "annotations" ALLOWED_META_ANNOTATIONS).1, []) :=
    annStep_nonmap _ h1 hlv
  refine ⟨(annStep mkvs "annotations" ALLOWED_META_ANNOTATIONS).1, ?_, h1⟩
  have h3 : (annStep mkvs "annotations" ALLOWED_META_ANNOTATIONS).1.isEmpty = false :=
    isEmpty_false_of_getK h1
  simp only [h2, h3, Bool.false_eq_true, if_false]

/-- C10: metadata pruning is total over arbitrary document shapes.  For a
registered mapping document, `_prune` returns normally; and whenever the
value of `metadata`, `metadata.annotations` or `metadata.labels` is not a
mapping, that value is carried into the cleaned document unchanged and
the corresponding pruning block records nothing for it (the spec-walk
never descends into paths starting with the character `m`, the metadata
blocks skip non-mapping values by their isinstance guards, and the
top-level filter always keeps `metadata`). -/
theorem c10_metadata_pruning_total (reg : Registry) (kvs : List (String × Yaml))
    (a k : String) (sch : Yaml)
    (h1 : Yaml.getK kvs "apiVersion" = some (.str a))
    (h2 : Yaml.getK kvs "kind" = some (.str k))
    (h3 : lookupP reg.full_schema (a, k) = some sch) :
    (∃ out, pruneData reg (.map kvs) = .ok out) ∧
    (∀ m, Yaml.getK kvs "metadata" = some m → m.isMap = false →
      (∃ kvs3 rs rt, pruneData reg (.map kvs) = .ok (.map kvs3, rs, rt) ∧
        Yaml.getK kvs3 "metadata" = some m) ∧
      (∀ l : List (String × Yaml), Yaml.getK l "metadata" = some m →
        pruneMetaStage l = (l, []))) ∧
    (∀ mkvs av, Yaml.getK kvs "metadata" = some (.map mkvs) →
      Yaml.getK mkvs "annotations" = some av → av.isMap = false →
      (∃ kvs3 rs rt mk3, pruneData reg (.map kvs) = .ok (.map kvs3, rs, rt) ∧
        Yaml.getK kvs3 "metadata" = some (.map mk3) ∧
        Yaml.getK mk3 "annotations" = some av) ∧
      annStep mkvs "annotations" ALLOWED_META_ANNOTATIONS = (mkvs, [])) ∧
    (∀ mkvs lv, Yaml.getK kvs "metadata" = some (.map mkvs) →
      Yaml.getK mkvs "labels" = some lv → lv.isMap = false →
      (∃ kvs3 rs rt mk3, pruneData reg (.map kvs) = .ok (.map kvs3, rs, rt) ∧
        Yaml.getK kvs3 "metadata" = some (.map mk3) ∧
        Yaml.getK mk3 "labels" = some lv) ∧
      annStep mkvs "labels" ALLOWED_META_LABELS = (mkvs, [])) := by
  have hpd := pruneData_map_known reg kvs a k sch h1 h2 h3
  have hwmeta : Yaml.getK (walkOrId reg (a, k) kvs).1 "metadata" =
      Yaml.getK kvs "metadata" := by
    unfold walkOrId
    cases hla : lookupP reg.allowed (a, k) with
    | none => simp
    | some al => simp [walkKVs_metadata_preserved]
  refine ⟨⟨_, hpd⟩, ?_, ?_, ?_⟩
  · intro m hm hmm
    have hw : Yaml.getK (walkOrId reg (a, k) kvs).1 "metadata" = some m := by
      rw [hwmeta]; exact hm
    have hms : pruneMetaStage (walkOrId reg (a, k) kvs).1 =
        ((walkOrId reg (a, k) kvs).1, []) := pruneMetaStage_nonmap hw hmm
    constructor
    · refine ⟨_, _, _, hpd, ?_⟩
      rw [hms]
      rw [pruneTopStage_metadata]
      exact hw
    · intro l hl
      exact pruneMetaStage_nonmap hl hmm
  · intro mkvs av hm ha hav
    have hw : Yaml.getK (walkOrId reg (a, k) kvs).1 "metadata" = some (.map mkvs) := by
      rw [hwmeta]; exact hm
    obtain ⟨mk3, hms1, hms2⟩ := pruneMetaStage_ann_nonmap hw ha hav
    constructor
    · refine ⟨_, _, _, mk3, hpd, ?_, hms2⟩
      rw [hms1]
      rw [pruneTopStage_metadata]
      exact getK_setK_self _ _ _
    · exact annStep_nonmap _ ha hav
  · intro mkvs lv hm hl hlv
    have hw : Yaml.getK (walkOrId reg (a, k) kvs).1 "metadata" = some (.map mkvs) := by
      rw [hwmeta]; exact hm
    obtain ⟨mk3, hms1, hms2⟩ := pruneMetaStage_lab_nonmap hw hl hlv
    constructor
    · refine ⟨_, _, _, mk3, hpd, ?_, hms2⟩
      rw [hms1]
      rw [pruneTopStage_metadata]
      exact getK_setK_self _ _ _
    · exact annStep_nonmap _ hl hlv

/-- Witness for C10: a registered type and a document whose metadata is
the string `oops` (not a mapping); prune succeeds and keeps it. -/
theorem c10_metadata_pruning_total_witness :
    Yaml.getK [("apiVersion", .str "g/v1"), ("kind", .str "Foo"),
        ("metadata", .str "oops")] "apiVersion" = some (.str "g/v1") ∧
    Yaml.getK [("apiVersion", .str "g/v1"), ("kind", .str "Foo"),
        ("metadata", .str "oops")] "kind" = some (.str "Foo") ∧
    (lookupP regFoo.full_schema ("g/v1", "Foo")).isSome = true ∧
    (∃ kvs3 rs rt, pruneData regFoo (.map [("apiVersion", .str "g/v1"),
        ("kind", .str "Foo"), ("metadata", .str "oops")]) = .ok (.map kvs3, rs, rt) ∧
      Yaml.getK kvs3 "metadata" = some (.str "oops")) := by
  have hsch : lookupP regFoo.full_schema ("g/v1", "Foo") = some fooSchema := by
    simp [regFoo, registerSchema, emptyRegistry, setP, lookupP]
  have h := c10_metadata_pruning_total regFoo
    [("apiVersion", .str "g/v1"), ("kind", .str "Foo"), ("metadata", .str "oops")]
    "g/v1" "Foo" fooSchema (by simp [Yaml.getK]) (by simp [Yaml.getK]) hsch
  refine ⟨by simp [Yaml.getK], by simp [Yaml.getK], by simp [hsch], ?_⟩
  exact (h.2.1 (.str "oops") (by simp [Yaml.getK]) (by simp [Yaml.isMap])).1

/-! ### C6 support: membership in the collected allow set, and the walk
over skeleton output -/

theorem strAppend_assoc (a b c : String) : (a ++ b) ++ c = a ++ (b ++ c) := by
  apply strext
  simp [strData_append]

theorem strAppend_ne_empty_left {a : String} (b : String) (h : a ≠ "") : a ++ b ≠ "" := by
  intro hx
  apply h
  apply strext
  have := congrArg String.data hx
  rw [strData_append, strData_empty] at this
  have h2 := List.append_eq_nil.mp this
  rw [strData_empty]
  exact h2.1

theorem strDot_ne_empty (base k : String) : base ++ "." ++ k ≠ "" := by
  intro hx
  have := congrArg String.data hx
  rw [strData_append, strData_append, strData_empty] at this
  have h2 := List.append_eq_nil.mp this
  have h3 := List.append_eq_nil.mp h2.1
  simp at h3

/-- Extending a dotted path by `.k` for an index-stable key `k` extends
the normalized path the same way. -/
theorem idxSub_extend {dotted base k : String} (h1 : idxSub dotted = base)
    (h2 : idxSub k = k) : idxSub (dotted ++ "." ++ k) = base ++ "." ++ k := by
  rw [strAppend_assoc]
  have hb : headFree ("." ++ k).data := by
    show headFree ('.' :: k.data)
    constructor <;> decide
  rw [idxSub_append hb, h1]
  rw [strAppend_assoc]
  congr 1
  apply strext
  show idxSubAux ('.' :: k.data) = ("." ++ k).data
  rw [idxSubAux_cons_ne (by decide)]
  have h3 : idxSubAux k.data = k.data := congrArg String.data h2
  rw [h3]
  rfl

/-- Extending a dotted path by an index `[0]` leaves the normalized path
unchanged. -/
theorem idxSub_extend_idx0 {dotted base : String} (h1 : idxSub dotted = base) :
    idxSub (dotted ++ "[" ++ toString (0 : Nat) ++ "]") = base := by
  rw [strAppend_assoc, strAppend_assoc]
  have ht : ("[" ++ (toString (0 : Nat) ++ "]") : String) = "[0]" := by decide
  rw [ht]
  have hb : headFree ("[0]" : String).data := by
    show headFree ('[' :: ['0', ']'])
    constructor <;> decide
  rw [idxSub_append hb, h1]
  have h2 : idxSub "[0]" = "" := by
    apply strext
    show idxSubAux ['[', '0', ']'] = []
    simp [idxSubAux, dropIdx, dropIdxRest, idxSubAux_nil]
  rw [h2]
  apply strext
  simp [strData_append, strData_empty]

theorem wfProps_mem : ∀ {pkvs : List (String × Yaml)} {k : String} {sub : Yaml},
    wfProps pkvs = true → (k, sub) ∈ pkvs → wfS (Yaml.orElse sub) = true := by
  intro pkvs
  induction pkvs with
  | nil => intro k sub _ hm; simp at hm
  | cons p rest ih =>
      intro k sub hwf hm
      obtain ⟨k2, sub2⟩ := p
      rw [wfProps] at hwf
      rw [Bool.and_eq_true] at hwf
      rcases List.mem_cons.mp hm with h1 | h1
      · injection h1 with e1 e2
        subst e2
        exact hwf.1
      · exact ih hwf.2 h1

theorem namesProps_mem : ∀ {pkvs : List (String × Yaml)} {k : String} {sub : Yaml},
    namesProps pkvs = true → (k, sub) ∈ pkvs →
    idxSub k = k ∧ namesOk (Yaml.orElse sub) = true := by
  intro pkvs
  induction pkvs with
  | nil => intro k sub _ hm; simp at hm
  | cons p rest ih =>
      intro k sub hwf hm
      obtain ⟨k2, sub2⟩ := p
      rw [namesProps] at hwf
      rw [Bool.and_eq_true, Bool.and_eq_true] at hwf
      rcases List.mem_cons.mp hm with h1 | h1
      · injection h1 with e1 e2
        subst e1 e2
        exact ⟨by simpa using hwf.1.1, hwf.1.2⟩
      · exact ih hwf.2 h1

theorem sizeOf_orElse_mem_props {kvs : List (String × Yaml)} {key k : String} {sub : Yaml}
    (hm : (k, sub) ∈ propsOf kvs key) :
    sizeOf (Yaml.orElse sub) < sizeOf (Yaml.map kvs) := by
  have h1 := sizeOf_mem_kvs hm
  have h2 := sizeOf_propsOf kvs key
  have h3 := sizeOf_orElse sub
  omega

theorem collectProps_mem_here {base : String} (hb : base ≠ "") :
    ∀ {pkvs : List (String × Yaml)} {k : String} {sub : Yaml},
    (k, sub) ∈ pkvs → (base ++ "." ++ k) ∈ collectProps pkvs base := by
  intro pkvs
  induction pkvs with
  | nil => intro k sub hm; simp at hm
  | cons p rest ih =>
      intro k sub hm
      obtain ⟨k2, sub2⟩ := p
      rw [collectProps]
      simp only [if_neg hb]
      rcases List.mem_cons.mp hm with h1 | h1
      · injection h1 with e1 e2
        subst e1
        simp
      · exact List.mem_append_right _ (ih h1)

theorem collectProps_mem_sub {base : String} (hb : base ≠ "") :
    ∀ {pkvs : List (String × Yaml)} {k : String} {sub : Yaml},
    (k, sub) ∈ pkvs → ∀ p ∈ collectPs (Yaml.orElse sub) (base ++ "." ++ k),
    p ∈ collectProps pkvs base := by
  intro pkvs
  induction pkvs with
  | nil => intro k sub hm; simp at hm
  | cons q rest ih =>
      intro k sub hm p hp
      obtain ⟨k2, sub2⟩ := q
      rw [collectProps]
      simp only [if_neg hb]
      rcases List.mem_cons.mp hm with h1 | h1
      · injection h1 with e1 e2
        subst e1 e2
        exact List.mem_append_left _ (List.mem_cons_of_mem _ hp)
      · exact List.mem_append_right _ (ih h1 p hp)

/-- For an object node, paths from its declared properties are in the
node's collected set. -/
theorem collectPs_obj_sub {kvs : List (String × Yaml)} {base : String}
    (hT : Yaml.getK kvs "type" = some (.str "object")) :
    ∀ p ∈ collectProps (propsOf kvs "properties") base, p ∈ collectPs (.map kvs) base := by
  intro p hp
  rw [collectPs]
  apply List.mem_append_right
  split
  · rename_i tstr heq
    rw [hT] at heq
    injection heq with heq2
    injection heq2 with heq3
    subst heq3
    rw [if_pos rfl]
    exact List.mem_append_left _ hp
  · rename_i hno
    exact absurd hT (by
      intro hx
      exact hno "object" hx)

/-- For an array node, paths from its items schema are in the node's
collected set. -/
theorem collectPs_arr_sub {kvs : List (String × Yaml)} {base : String}
    (hT : Yaml.getK kvs "type" = some (.str "array")) :
    ∀ p ∈ collectPs (fieldOr kvs "items") base, p ∈ collectPs (.map kvs) base := by
  intro p hp
  rw [collectPs]
  apply List.mem_append_right
  split
  · rename_i tstr heq
    rw [hT] at heq
    injection heq with heq2
    injection heq2 with heq3
    subst heq3
    rw [if_neg (by decide), if_pos rfl]
    exact hp
  · rename_i hno
    exact absurd hT (by
      intro hx
      exact hno "array" hx)

theorem build_obj {kvs : List (String × Yaml)}
    (hT : Yaml.getK kvs "type" = some (.str "object")) :
    build (.map kvs) = .map (buildProps (propsOf kvs "properties") (reqSetL kvs)) := by
  rw [build]
  split
  · rename_i tstr heq
    rw [hT] at heq
    injection heq with heq2
    injection heq2 with heq3
    subst heq3
    rw [if_pos rfl]
  · rename_i hno
    exact absurd hT (fun hx => hno "object" hx)

theorem build_arr {kvs : List (String × Yaml)}
    (hT : Yaml.getK kvs "type" = some (.str "array")) :
    build (.map kvs) = .arr [build (fieldOr kvs "items")] := by
  rw [build]
  split
  · rename_i tstr heq
    rw [hT] at heq
    injection heq with heq2
    injection heq2 with heq3
    subst heq3
    rw [if_neg (by decide), if_pos rfl]
  · rename_i hno
    exact absurd hT (fun hx => hno "array" hx)

theorem build_null_of {kvs : List (String × Yaml)}
    (h : ∀ tstr, Yaml.getK kvs "type" = some (.str tstr) →
      tstr ≠ "object" ∧ tstr ≠ "array") :
    build (.map kvs) = .null := by
  rw [build]
  split
  · rename_i tstr heq
    obtain ⟨h1, h2⟩ := h tstr heq
    rw [if_neg h1, if_neg h2]
  · rfl

theorem wfS_obj_props {kvs : List (String × Yaml)}
    (hT : Yaml.getK kvs "type" = some (.str "object"))
    (hwf : wfS (.map kvs) = true) :
    wfProps (propsOf kvs "properties") = true := by
  rw [wfS] at hwf
  rw [Bool.and_eq_true, Bool.and_eq_true, Bool.and_eq_true, Bool.and_eq_true] at hwf
  have hty := hwf.2
  split at hty
  · rename_i tstr heq
    rw [hT] at heq
    injection heq with heq2
    injection heq2 with heq3
    subst heq3
    rw [if_pos rfl] at hty
    rw [Bool.and_eq_true, Bool.and_eq_true] at hty
    exact hty.1.2
  · rename_i hno
    exact absurd hT (fun hx => hno "object" hx)

theorem wfS_arr_items {kvs : List (String × Yaml)}
    (hT : Yaml.getK kvs "type" = some (.str "array"))
    (hwf : wfS (.map kvs) = true) :
    wfS (fieldOr kvs "items") = true := by
  rw [wfS] at hwf
  rw [Bool.and_eq_true, Bool.and_eq_true, Bool.and_eq_true, Bool.and_eq_true] at hwf
  have hty := hwf.2
  split at hty
  · rename_i tstr heq
    rw [hT] at heq
    injection heq with heq2
    injection heq2 with heq3
    subst heq3
    rw [if_neg (by decide), if_pos rfl] at hty
    exact hty
  · rename_i hno
    exact absurd hT (fun hx => hno "array" hx)

theorem namesOk_obj_props {kvs : List (String × Yaml)}
    (hT : Yaml.getK kvs "type" = some (.str "object"))
    (hn : namesOk (.map kvs) = true) :
    namesProps (propsOf kvs "properties") = true := by
  rw [namesOk] at hn
  split at hn
  · rename_i tstr heq
    rw [hT] at heq
    injection heq with heq2
    injection heq2 with heq3
    subst heq3
    rw [if_pos rfl] at hn
    exact hn
  · rename_i hno
    exact absurd hT (fun hx => hno "object" hx)

theorem namesOk_arr_items {kvs : List (String × Yaml)}
    (hT : Yaml.getK kvs "type" = some (.str "array"))
    (hn : namesOk (.map kvs) = true) :
    namesOk (fieldOr kvs "items") = true := by
  rw [namesOk] at hn
  split at hn
  · rename_i tstr heq
    rw [hT] at heq
    injection heq with heq2
    injection heq2 with heq3
    subst heq3
    rw [if_neg (by decide), if_pos rfl] at hn
    exact hn
  · rename_i hno
    exact absurd hT (fun hx => hno "array" hx)

/-- The walk over the skeleton of an object node: every emitted key is in
the allow set (its normalized path is the collected property path), so
nothing is removed. -/
theorem walk_buildProps (al : List String) (dotted base : String)
    (hne : dotted ≠ "") (hidx : idxSub dotted = base) :
    ∀ (pkvs : List (String × Yaml)) (req : List String),
    (∀ k sub, (k, sub) ∈ pkvs → idxSub k = k) →
    (∀ k sub, (k, sub) ∈ pkvs → al.contains (base ++ "." ++ k) = true) →
    (∀ k sub, (k, sub) ∈ pkvs →
      walkY al (dotted ++ "." ++ k) (build (Yaml.orElse sub)) =
        (build (Yaml.orElse sub), [])) →
    walkKVs al dotted (buildProps pkvs req) = (buildProps pkvs req, []) := by
  intro pkvs
  induction pkvs with
  | nil =>
      intro req _ _ _
      rw [buildProps]
      exact walkKVs_nil al dotted
  | cons p rest ih =>
      intro req hnames hcont hrec
      obtain ⟨k, sub⟩ := p
      have hih := ih req (fun k2 s2 hm => hnames k2 s2 (List.mem_cons_of_mem _ hm))
        (fun k2 s2 hm => hcont k2 s2 (List.mem_cons_of_mem _ hm))
        (fun k2 s2 hm => hrec k2 s2 (List.mem_cons_of_mem _ hm))
      rw [buildProps]
      cases hreq : req.contains k with
      | false =>
          simp only [Bool.false_eq_true, if_false]
          exact hih
      | true =>
          simp only [if_pos]
          rw [walkKVs]
          have hnk := hnames k sub (by simp)
          have hclean : idxSub (dotted ++ "." ++ k) = base ++ "." ++ k :=
            idxSub_extend hidx hnk
          simp only [if_neg hne, hclean]
          rw [hcont k sub (by simp)]
          simp only [Bool.not_true, Bool.and_false, Bool.false_eq_true, if_false]
          rw [hrec k sub (by simp)]
          simp [hih]

/-- The skeleton of a well-formed schema node survives the walk at any
dotted path whose normalization is the collection base: every key the
builder emits has its normalized path in the collected set. -/
theorem walk_build : ∀ (n : Nat) (s : Yaml), sizeOf s ≤ n →
    ∀ (al : List String) (dotted : String),
    dotted ≠ "" → idxSub dotted ≠ "" →
    wfS s = true → namesOk s = true →
    (∀ p ∈ collectPs s (idxSub dotted), al.contains p = true) →
    walkY al dotted (build s) = (build s, []) := by
  intro n
  induction n with
  | zero =>
      intro s hle
      have := yamlSizeOf_pos s
      omega
  | succ n ih =>
      intro s hle al dotted hne hbne hwf hnames hcoll
      cases s with
      | null => simp [wfS] at hwf
      | bool b => simp [wfS] at hwf
      | int m => simp [wfS] at hwf
      | str s2 => simp [wfS] at hwf
      | arr xs => simp [wfS] at hwf
      | map kvs =>
          cases hT : Yaml.getK kvs "type" with
          | none =>
              rw [build_null_of (fun t2 heq => by rw [hT] at heq; simp at heq)]
              exact walkY_null al dotted
          | some tv =>
              cases tv with
              | str tstr =>
                  by_cases hobj : tstr = "object"
                  · subst hobj
                    rw [build_obj hT, walkY_map]
                    have hbp : walkKVs al dotted
                        (buildProps (propsOf kvs "properties") (reqSetL kvs)) =
                        (buildProps (propsOf kvs "properties") (reqSetL kvs), []) := by
                      apply walk_buildProps al dotted (idxSub dotted) hne rfl
                      · intro k sub hm
                        exact (namesProps_mem (namesOk_obj_props hT hnames) hm).1
                      · intro k sub hm
                        apply hcoll
                        exact collectPs_obj_sub hT _ (collectProps_mem_here hbne hm)
                      · intro k sub hm
                        have hnk := (namesProps_mem (namesOk_obj_props hT hnames) hm).1
                        have hext : idxSub (dotted ++ "." ++ k) =
                            idxSub dotted ++ "." ++ k := idxSub_extend rfl hnk
                        have hsz : sizeOf (Yaml.orElse sub) ≤ n := by
                          have h3 := sizeOf_orElse_mem_props hm
                          omega
                        apply ih (Yaml.orElse sub) hsz al (dotted ++ "." ++ k)
                          (strAppend_ne_empty_left _
                            (strAppend_ne_empty_left _ hne))
                          (by rw [hext]; exact strDot_ne_empty _ _)
                          (wfProps_mem (wfS_obj_props hT hwf) hm)
                          ((namesProps_mem (namesOk_obj_props hT hnames) hm).2)
                        intro p hp
                        rw [hext] at hp
                        apply hcoll
                        exact collectPs_obj_sub hT _ (collectProps_mem_sub hbne hm p hp)
                    simp [hbp]
                  · by_cases harr : tstr = "array"
                    · subst harr
                      rw [build_arr hT, walkY_arr]
                      have hx : walkY al (dotted ++ "[" ++ toString 0 ++ "]")
                          (build (fieldOr kvs "items")) =
                          (build (fieldOr kvs "items"), []) := by
                        have hsz : sizeOf (fieldOr kvs "items") ≤ n := by
                          have h3 := sizeOf_fieldOr_of_mem kvs "items" "type"
                            (.str "array") hT
                          omega
                        have hext : idxSub (dotted ++ "[" ++ toString (0 : Nat) ++ "]") =
                            idxSub dotted := idxSub_extend_idx0 rfl
                        apply ih (fieldOr kvs "items") hsz al
                          (dotted ++ "[" ++ toString 0 ++ "]")
                          (strAppend_ne_empty_left _
                            (strAppend_ne_empty_left _
                              (strAppend_ne_empty_left _ hne)))
                          (by rw [hext]; exact hbne)
                          (wfS_arr_items hT hwf)
                          (namesOk_arr_items hT hnames)
                        intro p hp
                        rw [hext] at hp
                        apply hcoll
                        exact collectPs_arr_sub hT _ hp
                      rw [walkArr, hx, walkArr]
                      simp
                    · rw [build_null_of (fun t2 heq => by
                        rw [hT] at heq
                        injection heq with h2
                        injection h2 with h3
                        subst h3
                        exact ⟨hobj, harr⟩)]
                      exact walkY_null al dotted
              | null =>
                  rw [build_null_of (fun t2 heq => by rw [hT] at heq; simp at heq)]
                  exact walkY_null al dotted
              | bool b =>
                  rw [build_null_of (fun t2 heq => by rw [hT] at heq; simp at heq)]
                  exact walkY_null al dotted
              | int m =>
                  rw [build_null_of (fun t2 heq => by rw [hT] at heq; simp at heq)]
                  exact walkY_null al dotted
              | arr xs =>
                  rw [build_null_of (fun t2 heq => by rw [hT] at heq; simp at heq)]
                  exact walkY_null al dotted
              | map mkvs =>
                  rw [build_null_of (fun t2 heq => by rw [hT] at heq; simp at heq)]
                  exact walkY_null al dotted

theorem getK_append (l1 l2 : List (String × Yaml)) (key : String) :
    Yaml.getK (l1 ++ l2) key =
      (match Yaml.getK l1 key with
       | some v => some v
       | none => Yaml.getK l2 key) := by
  induction l1 with
  | nil => simp [Yaml.getK]
  | cons p rest ih =>
      obtain ⟨k, v⟩ := p
      by_cases hk : k = key
      · simp [Yaml.getK, hk]
      · simp [Yaml.getK, hk, ih]

theorem skelMeta_shape (props : List (String × Yaml)) :
    skelMeta props = [] ∨
    ∃ mm, skelMeta props = [("metadata", Yaml.map mm)] ∧
      Yaml.getK mm "annotations" = none ∧ Yaml.getK mm "labels" = none ∧
      mm.isEmpty = false := by
  unfold skelMeta
  cases hm : Yaml.getK props "metadata" with
  | none => exact Or.inl rfl
  | some m =>
      cases m with
      | map ms =>
          simp only
          set meta := (if (reqSetL ms).contains "name" then [("name", Yaml.str "")] else []) ++
            (if (reqSetL ms).contains "namespace" then [("namespace", Yaml.str "")] else [])
            with hmeta
          have hmem : ∀ p ∈ meta, p.1 = "name" ∨ p.1 = "namespace" := by
            intro p hp
            rw [hmeta] at hp
            rcases List.mem_append.mp hp with h | h
            · by_cases hc : (reqSetL ms).contains "name" = true
              · rw [if_pos hc] at h
                simp at h
                left
                rw [h]
              · rw [if_neg hc] at h
                simp at h
            · by_cases hc : (reqSetL ms).contains "namespace" = true
              · rw [if_pos hc] at h
                simp at h
                right
                rw [h]
              · rw [if_neg hc] at h
                simp at h
          cases he : meta.isEmpty with
          | true => simp [he]
          | false =>
              refine Or.inr ⟨meta, by simp [he], ?_, ?_, he⟩
              · apply getK_none_of
                intro p hp
                rcases hmem p hp with h | h <;> (rw [h]; decide)
              · apply getK_none_of
                intro p hp
                rcases hmem p hp with h | h <;> (rw [h]; decide)
      | null => exact Or.inl rfl
      | bool b => exact Or.inl rfl
      | int n => exact Or.inl rfl
      | str s2 => exact Or.inl rfl
      | arr xs => exact Or.inl rfl
theorem annStep_none {mm : List (String × Yaml)} {field : String}
    (allowedKeys : List String) (h : Yaml.getK mm field = none) :
    annStep mm field allowedKeys = (mm, []) := by
  unfold annStep
  rw [h]

theorem pruneMetaStage_none {l : List (String × Yaml)}
    (h : Yaml.getK l "metadata" = none) : pruneMetaStage l = (l, []) := by
  unfold pruneMetaStage
  rw [h]

theorem pruneMetaStage_skel {l mm : List (String × Yaml)}
    (hm : Yaml.getK l "metadata" = some (.map mm))
    (ha : Yaml.getK mm "annotations" = none)
    (hb : Yaml.getK mm "labels" = none)
    (hne : mm.isEmpty = false) :
    pruneMetaStage l = (l, []) := by
  unfold pruneMetaStage
  rw [hm]
  simp only [annStep_none ALLOWED_META_ANNOTATIONS ha,
    annStep_none ALLOWED_META_LABELS hb, hne, Bool.false_eq_true, if_false]
  rw [setK_self hm]
  simp

theorem pruneTopStage_all {allowedTop : List String} {l : List (String × Yaml)}
    (h : ∀ p ∈ l, (allowedTop.contains p.1 ||
      (["apiVersion", "kind", "metadata"] : List String).contains p.1) = true) :
    pruneTopStage allowedTop l = (l, []) := by
  unfold pruneTopStage
  have h1 : l.filter (fun p => allowedTop.contains p.1 ||
      (["apiVersion", "kind", "metadata"] : List String).contains p.1) = l :=
    List.filter_eq_self.mpr h
  have h2 : l.filter (fun p => !(allowedTop.contains p.1 ||
      (["apiVersion", "kind", "metadata"] : List String).contains p.1)) = [] := by
    rw [List.filter_eq_nil_iff]
    intro p hp
    rw [h p hp]
    decide
  simp only [h1, h2, List.map_nil]

theorem mem_insStr {a b : String} : ∀ {l : List String}, a ∈ insStr b l → a = b ∨ a ∈ l := by
  intro l
  induction l with
  | nil => intro h; simpa [insStr] using h
  | cons c rest ih =>
      intro h
      rw [insStr] at h
      by_cases hc : b ≤ c
      · rw [if_pos hc] at h
        rcases List.mem_cons.mp h with h1 | h1
        · exact Or.inl h1
        · exact Or.inr h1
      · rw [if_neg hc] at h
        rcases List.mem_cons.mp h with h1 | h1
        · exact Or.inr (by rw [h1]; simp)
        · rcases ih h1 with h2 | h2
          · exact Or.inl h2
          · exact Or.inr (List.mem_cons_of_mem _ h2)

theorem mem_sortStr {a : String} : ∀ {l : List String}, a ∈ sortStr l → a ∈ l := by
  intro l
  induction l with
  | nil => intro h; simpa [sortStr] using h
  | cons c rest ih =>
      intro h
      rw [sortStr] at h
      rcases mem_insStr h with h1 | h1
      · rw [h1]; simp
      · exact List.mem_cons_of_mem _ (ih h1)

theorem mem_dedupStr {a : String} : ∀ (l : List String), a ∈ dedupStr l → a ∈ l := by
  suffices H : ∀ (n : Nat) (l : List String), l.length ≤ n → a ∈ dedupStr l → a ∈ l from
    fun l => H l.length l le_rfl
  intro n
  induction n with
  | zero =>
      intro l hl h
      have : l = [] := List.length_eq_zero.mp (Nat.le_zero.mp hl)
      subst this
      simpa [dedupStr] using h
  | succ n ih =>
      intro l hl h
      cases l with
      | nil => simpa [dedupStr] using h
      | cons b rest =>
          rw [dedupStr] at h
          rcases List.mem_cons.mp h with h1 | h1
          · rw [h1]; simp
          · have hlen : (rest.filter (fun c => !(c == b))).length ≤ n := by
              have := List.length_filter_le (fun c => !(c == b)) rest
              simp at hl
              omega
            have h2 := ih _ hlen h1
            exact List.mem_cons_of_mem _ (List.mem_filter.mp h2).1

/-- Facts about the entries of the skeleton else-branch: each key is a
declared property and is none of the boilerplate keys. -/
theorem skelReq_mem {skvs props : List (String × Yaml)} {k : String} {v : Yaml}
    (h : (k, v) ∈ skelReq skvs props) :
    k ∈ props.map (·.1) ∧
      (!(["apiVersion", "kind", "metadata"] : List String).contains k) = true := by
  unfold skelReq at h
  rw [List.mem_filterMap] at h
  obtain ⟨k0, hk0, hf⟩ := h
  cases hg : Yaml.getK props k0 with
  | none => rw [hg] at hf; simp at hf
  | some sub =>
      rw [hg] at hf
      simp at hf
      obtain ⟨he1, he2⟩ := hf
      subst_vars
      constructor
      · exact List.mem_map.mpr ⟨_, getK_some_mem hg, rfl⟩
      · have h1 := mem_sortStr hk0
        have h2 := mem_dedupStr _ h1
        exact (List.mem_filter.mp h2).2

theorem idxSub_apiVersion : idxSub "apiVersion" = "apiVersion" := by
  simp [idxSub, idxSubAux, dropIdx, dropIdxRest]

theorem idxSub_kind : idxSub "kind" = "kind" := by
  simp [idxSub, idxSubAux, dropIdx, dropIdxRest]

theorem idxSub_metadata : idxSub "metadata" = "metadata" := by
  simp [idxSub, idxSubAux, dropIdx, dropIdxRest]

theorem idxSub_spec : idxSub "spec" = "spec" := by
  simp [idxSub, idxSubAux, dropIdx, dropIdxRest]

/-- The walk leaves the spec value of the skeleton unchanged: either it is
the built subtree (covered by walk_build) or the empty mapping. -/
theorem walk_skel_spec (al : List String) (sp : Yaml)
    (hwfs : wfS sp = true) (hns : namesOk sp = true)
    (hcoll : ∀ p ∈ collectPs sp "spec", al.contains p = true) :
    walkY al "spec" (Yaml.orElse (build sp)) = (Yaml.orElse (build sp), []) := by
  cases htr : Yaml.truthy (build sp) with
  | true =>
      have ho : Yaml.orElse (build sp) = build sp := by simp [Yaml.orElse, htr]
      rw [ho]
      apply walk_build (sizeOf sp) sp le_rfl al "spec" (by decide)
        (by rw [idxSub_spec]; decide) hwfs hns
      rw [idxSub_spec]
      exact hcoll
  | false =>
      have ho : Yaml.orElse (build sp) = .map [] := by simp [Yaml.orElse, htr]
      rw [ho, walkY_map, walkKVs_nil]

theorem containsStr_of_mem {a : String} {l : List String} (h : a ∈ l) :
    l.contains a = true := by
  first
    | exact List.elem_eq_true_of_mem h
    | simpa using h

/-- The key of every entry of the skeleton else-branch is outside the
boilerplate set, so lookups of boilerplate keys in it fail. -/
theorem getK_skelReq_none (skvs props : List (String × Yaml)) (key : String)
    (hk : (["apiVersion", "kind", "metadata"] : List String).contains key = true) :
    Yaml.getK (skelReq skvs props) key = none := by
  apply getK_none_of
  intro p hp
  rcases p with ⟨k, v⟩
  intro hke
  have h2 := (skelReq_mem hp).2
  have hke' : k = key := hke
  rw [hke', hk] at h2
  simp at h2

/-- The top-level walk with the freshly collected allow set leaves the
spec-branch skeleton mapping untouched: `apiVersion`, `kind` and
`metadata` keep their leading characters under index stripping, and the
built spec subtree is covered by the collected paths. -/
theorem walkKVs_skel (sp : Yaml) (props : List (String × Yaml)) (api kind : String)
    (hwfs : wfS sp = true) (hns : namesOk sp = true) :
    walkKVs (collectPs sp "spec") ""
      (("apiVersion", Yaml.str api) :: ("kind", Yaml.str kind) ::
        (skelMeta props ++ [("spec", Yaml.orElse (build sp))])) =
      (("apiVersion", Yaml.str api) :: ("kind", Yaml.str kind) ::
        (skelMeta props ++ [("spec", Yaml.orElse (build sp))]), []) := by
  have hspecw : walkY (collectPs sp "spec") "spec" (Yaml.orElse (build sp)) =
      (Yaml.orElse (build sp), []) :=
    walk_skel_spec _ sp hwfs hns (fun p hp => containsStr_of_mem hp)
  rcases skelMeta_shape props with hsm | ⟨mm, hsm, ha, hb, hne⟩
  · rw [hsm]
    apply walkKVs_skip_all
    · intro k w hm
      rw [if_pos rfl]
      simp only [List.nil_append, List.mem_cons, List.mem_singleton,
        List.not_mem_nil, or_false, Prod.mk.injEq] at hm
      rcases hm with ⟨h1, h2⟩ | ⟨h1, h2⟩ | ⟨h1, h2⟩
      · rw [h1, idxSub_apiVersion]; decide
      · rw [h1, idxSub_kind]; decide
      · rw [h1, idxSub_spec]; decide
    · intro k w hm
      rw [if_pos rfl]
      simp only [List.nil_append, List.mem_cons, List.mem_singleton,
        List.not_mem_nil, or_false, Prod.mk.injEq] at hm
      rcases hm with ⟨h1, h2⟩ | ⟨h1, h2⟩ | ⟨h1, h2⟩
      · rw [h1, h2]; exact walkY_str _ _ _
      · rw [h1, h2]; exact walkY_str _ _ _
      · rw [h1, h2]; exact hspecw
  · rw [hsm]
    apply walkKVs_skip_all
    · intro k w hm
      rw [if_pos rfl]
      simp only [List.cons_append, List.nil_append, List.mem_cons, List.mem_singleton,
        List.not_mem_nil, or_false, Prod.mk.injEq] at hm
      rcases hm with ⟨h1, h2⟩ | ⟨h1, h2⟩ | ⟨h1, h2⟩ | ⟨h1, h2⟩
      · rw [h1, idxSub_apiVersion]; decide
      · rw [h1, idxSub_kind]; decide
      · rw [h1, idxSub_metadata]; decide
      · rw [h1, idxSub_spec]; decide
    · intro k w hm
      rw [if_pos rfl]
      simp only [List.cons_append, List.nil_append, List.mem_cons, List.mem_singleton,
        List.not_mem_nil, or_false, Prod.mk.injEq] at hm
      rcases hm with ⟨h1, h2⟩ | ⟨h1, h2⟩ | ⟨h1, h2⟩ | ⟨h1, h2⟩
      · rw [h1, h2]; exact walkY_str _ _ _
      · rw [h1, h2]; exact walkY_str _ _ _
      · rw [h1, h2]
        exact walk_skip (sizeOf (Yaml.map mm)) _ le_rfl _ "metadata" 'm' _ rfl
          (by decide) (by decide)
      · rw [h1, h2]; exact hspecw

/-- C6 (amended): for a freshly registered type whose full schema lies in
`wfSchemaTop` — the domain on which `_make_skeleton` runs to completion
and the total models reproduce it: `properties` a mapping; every
`required` the builder reads (top level, metadata subschema, every object
node it visits) absent, falsy or a list of strings; the `spec` subschema,
when present, well-formed with index-stable property names; when absent,
every required non-boilerplate top-level property subschema itself
well-formed — pruning the skeleton yields the skeleton back with both
removal lists empty.  The original universally quantified claim fails for
registries holding stale allow-set entries and for property names
containing an array-index segment, which the collector stores verbatim
but the pruner compares only after index stripping. -/
theorem c6_amended_prune_skeleton (api kind : String) (schema : Yaml)
    (hwf : wfSchemaTop schema = true) :
    pruneData (registerSchema emptyRegistry api kind schema)
      (skeletonBody schema api kind) =
      .ok (skeletonBody schema api kind, [], []) := by
  cases schema with
  | null => simp [wfSchemaTop] at hwf
  | bool b => simp [wfSchemaTop] at hwf
  | int n => simp [wfSchemaTop] at hwf
  | str s => simp [wfSchemaTop] at hwf
  | arr xs => simp [wfSchemaTop] at hwf
  | map skvs =>
    have hfull : lookupP (registerSchema emptyRegistry api kind (.map skvs)).full_schema
        (api, kind) = some (.map skvs) := by
      simp [registerSchema, emptyRegistry, setP, lookupP]
    have htop : lookupP (registerSchema emptyRegistry api kind (.map skvs)).top_allowed
        (api, kind) = some ((propsOf skvs "properties").map (·.1)) := by
      simp [registerSchema, emptyRegistry, setP, lookupP, asMapD]
    cases hspec : Yaml.getK (propsOf skvs "properties") "spec" with
    | some sp =>
        have hww : wfS sp = true ∧ namesOk sp = true := by
          unfold wfSchemaTop at hwf
          simp only [Bool.and_eq_true] at hwf
          obtain ⟨-, hC⟩ := hwf
          split at hC
          · rename_i sp0 heq
            rw [hspec] at heq
            injection heq with heq2
            subst heq2
            simp only [Bool.and_eq_true] at hC
            exact hC
          · rename_i heq
            rw [hspec] at heq
            cases heq
        obtain ⟨hw1, hw2⟩ := hww
        have hallow : lookupP (registerSchema emptyRegistry api kind (.map skvs)).allowed
            (api, kind) = some (collectPs sp "spec") := by
          simp [registerSchema, emptyRegistry, setP, lookupP, asMapD, hspec]
        have hbody : skeletonBody (.map skvs) api kind =
            .map (("apiVersion", Yaml.str api) :: ("kind", Yaml.str kind) ::
              (skelMeta (propsOf skvs "properties") ++
                [("spec", Yaml.orElse (build sp))])) := by
          simp [skeletonBody, asMapD, hspec]
        have h1 : Yaml.getK (("apiVersion", Yaml.str api) :: ("kind", Yaml.str kind) ::
            (skelMeta (propsOf skvs "properties") ++
              [("spec", Yaml.orElse (build sp))])) "apiVersion" = some (.str api) := by
          simp [Yaml.getK]
        have h2 : Yaml.getK (("apiVersion", Yaml.str api) :: ("kind", Yaml.str kind) ::
            (skelMeta (propsOf skvs "properties") ++
              [("spec", Yaml.orElse (build sp))])) "kind" = some (.str kind) := by
          simp [Yaml.getK]
        have hwoi : walkOrId (registerSchema emptyRegistry api kind (.map skvs)) (api, kind)
            (("apiVersion", Yaml.str api) :: ("kind", Yaml.str kind) ::
              (skelMeta (propsOf skvs "properties") ++
                [("spec", Yaml.orElse (build sp))])) =
            (("apiVersion", Yaml.str api) :: ("kind", Yaml.str kind) ::
              (skelMeta (propsOf skvs "properties") ++
                [("spec", Yaml.orElse (build sp))]), []) := by
          unfold walkOrId
          rw [hallow]
          exact walkKVs_skel sp _ api kind hw1 hw2
        have hmeta : pruneMetaStage (("apiVersion", Yaml.str api) ::
            ("kind", Yaml.str kind) :: (skelMeta (propsOf skvs "properties") ++
              [("spec", Yaml.orElse (build sp))])) =
            (("apiVersion", Yaml.str api) :: ("kind", Yaml.str kind) ::
              (skelMeta (propsOf skvs "properties") ++
                [("spec", Yaml.orElse (build sp))]), []) := by
          rcases skelMeta_shape (propsOf skvs "properties") with hsm | ⟨mm, hsm, ha, hb, hne⟩
          · rw [hsm]
            apply pruneMetaStage_none
            simp [Yaml.getK]
          · have hm : Yaml.getK (("apiVersion", Yaml.str api) :: ("kind", Yaml.str kind) ::
                ([("metadata", Yaml.map mm)] ++ [("spec", Yaml.orElse (build sp))]))
                "metadata" = some (.map mm) := by
              simp [Yaml.getK]
            rw [hsm]
            exact pruneMetaStage_skel hm ha hb hne
        have htops : pruneTopStage ((propsOf skvs "properties").map (·.1))
            (("apiVersion", Yaml.str api) :: ("kind", Yaml.str kind) ::
              (skelMeta (propsOf skvs "properties") ++
                [("spec", Yaml.orElse (build sp))])) =
            (("apiVersion", Yaml.str api) :: ("kind", Yaml.str kind) ::
              (skelMeta (propsOf skvs "properties") ++
                [("spec", Yaml.orElse (build sp))]), []) := by
          apply pruneTopStage_all
          intro p hp
          simp only [List.mem_cons, List.mem_append, List.mem_singleton,
            List.not_mem_nil, or_false] at hp
          rcases hp with h | h | h | h
          · have h1p : p.1 = "apiVersion" := by rw [h]
            have hb2 : (["apiVersion", "kind", "metadata"] : List String).contains
                "apiVersion" = true := by decide
            rw [h1p, hb2]
            exact Bool.or_true _
          · have h1p : p.1 = "kind" := by rw [h]
            have hb2 : (["apiVersion", "kind", "metadata"] : List String).contains
                "kind" = true := by decide
            rw [h1p, hb2]
            exact Bool.or_true _
          · rcases skelMeta_shape (propsOf skvs "properties") with hsm | ⟨mm, hsm, _, _, _⟩
            · rw [hsm] at h
              cases h
            · rw [hsm] at h
              simp only [List.mem_singleton] at h
              have h1p : p.1 = "metadata" := by rw [h]
              have hb2 : (["apiVersion", "kind", "metadata"] : List String).contains
                  "metadata" = true := by decide
              rw [h1p, hb2]
              exact Bool.or_true _
          · have h1p : p.1 = "spec" := by rw [h]
            have hmem : "spec" ∈ (propsOf skvs "properties").map (·.1) :=
              List.mem_map.mpr ⟨("spec", sp), getK_some_mem hspec, rfl⟩
            rw [h1p, containsStr_of_mem hmem]
            exact Bool.true_or _
        rw [hbody]
        rw [pruneData_map_known _ _ api kind (.map skvs) h1 h2 hfull]
        rw [htop]
        simp only [hwoi, Option.getD_some, hmeta, htops]
        simp
    | none =>
        have hallow0 : lookupP (registerSchema emptyRegistry api kind (.map skvs)).allowed
            (api, kind) = none := by
          simp [registerSchema, emptyRegistry, setP, lookupP, asMapD, hspec]
        have hbody : skeletonBody (.map skvs) api kind =
            .map (("apiVersion", Yaml.str api) :: ("kind", Yaml.str kind) ::
              (skelMeta (propsOf skvs "properties") ++
                skelReq skvs (propsOf skvs "properties"))) := by
          simp [skeletonBody, asMapD, hspec]
        have h1 : Yaml.getK (("apiVersion", Yaml.str api) :: ("kind", Yaml.str kind) ::
            (skelMeta (propsOf skvs "properties") ++
              skelReq skvs (propsOf skvs "properties"))) "apiVersion" =
            some (.str api) := by
          simp [Yaml.getK]
        have h2 : Yaml.getK (("apiVersion", Yaml.str api) :: ("kind", Yaml.str kind) ::
            (skelMeta (propsOf skvs "properties") ++
              skelReq skvs (propsOf skvs "properties"))) "kind" = some (.str kind) := by
          simp [Yaml.getK]
        have hwoi : walkOrId (registerSchema emptyRegistry api kind (.map skvs)) (api, kind)
            (("apiVersion", Yaml.str api) :: ("kind", Yaml.str kind) ::
              (skelMeta (propsOf skvs "properties") ++
                skelReq skvs (propsOf skvs "properties"))) =
            (("apiVersion", Yaml.str api) :: ("kind", Yaml.str kind) ::
              (skelMeta (propsOf skvs "properties") ++
                skelReq skvs (propsOf skvs "properties")), []) := by
          unfold walkOrId
          rw [hallow0]
        have hmeta : pruneMetaStage (("apiVersion", Yaml.str api) ::
            ("kind", Yaml.str kind) :: (skelMeta (propsOf skvs "properties") ++
              skelReq skvs (propsOf skvs "properties"))) =
            (("apiVersion", Yaml.str api) :: ("kind", Yaml.str kind) ::
              (skelMeta (propsOf skvs "properties") ++
                skelReq skvs (propsOf skvs "properties")), []) := by
          rcases skelMeta_shape (propsOf skvs "properties") with hsm | ⟨mm, hsm, ha, hb, hne⟩
          · rw [hsm]
            apply pruneMetaStage_none
            simp only [List.nil_append, Yaml.getK]
            rw [if_neg (by decide), if_neg (by decide)]
            exact getK_skelReq_none skvs (propsOf skvs "properties") "metadata" (by decide)
          · have hm : Yaml.getK (("apiVersion", Yaml.str api) :: ("kind", Yaml.str kind) ::
                ([("metadata", Yaml.map mm)] ++
                  skelReq skvs (propsOf skvs "properties"))) "metadata" =
                some (.map mm) := by
              simp [Yaml.getK]
            rw [hsm]
            exact pruneMetaStage_skel hm ha hb hne
        have htops : pruneTopStage ((propsOf skvs "properties").map (·.1))
            (("apiVersion", Yaml.str api) :: ("kind", Yaml.str kind) ::
              (skelMeta (propsOf skvs "properties") ++
                skelReq skvs (propsOf skvs "properties"))) =
            (("apiVersion", Yaml.str api) :: ("kind", Yaml.str kind) ::
              (skelMeta (propsOf skvs "properties") ++
                skelReq skvs (propsOf skvs "properties")), []) := by
          apply pruneTopStage_all
          intro p hp
          simp only [List.mem_cons, List.mem_append] at hp
          rcases hp with h | h | h | h
          · have h1p : p.1 = "apiVersion" := by rw [h]
            have hb2 : (["apiVersion", "kind", "metadata"] : List String).contains
                "apiVersion" = true := by decide
            rw [h1p, hb2]
            exact Bool.or_true _
          · have h1p : p.1 = "kind" := by rw [h]
            have hb2 : (["apiVersion", "kind", "metadata"] : List String).contains
                "kind" = true := by decide
            rw [h1p, hb2]
            exact Bool.or_true _
          · rcases skelMeta_shape (propsOf skvs "properties") with hsm | ⟨mm, hsm, _, _, _⟩
            · rw [hsm] at h
              cases h
            · rw [hsm] at h
              simp only [List.mem_singleton] at h
              have h1p : p.1 = "metadata" := by rw [h]
              have hb2 : (["apiVersion", "kind", "metadata"] : List String).contains
                  "metadata" = true := by decide
              rw [h1p, hb2]
              exact Bool.or_true _
          · rcases p with ⟨k, v⟩
            have hmem := (skelReq_mem h).1
            rw [containsStr_of_mem hmem]
            exact Bool.true_or _
        rw [hbody]
        rw [pruneData_map_known _ _ api kind (.map skvs) h1 h2 hfull]
        rw [htop]
        simp only [hwoi, Option.getD_some, hmeta, htops]
        simp

/-- A registered full schema whose spec declares a required property named
`a[0]`: the collector stores the name verbatim, but the pruner strips the
index marker before the membership test. -/
def bracketSchema : Yaml :=
  .map [("type", .str "object"),
        ("properties", .map [("spec", .map [("type", .str "object"),
          ("required", .arr [.str "a\x5b0]"]),
          ("properties", .map [("a\x5b0]", .map [("type", .str "string")])])])])]

/-- C6 counterexample: for the registered type (g/v1, Foo) with
`bracketSchema`, the skeleton contains `spec.a[0]` (required, so the
builder emits it), yet pruning the skeleton removes it — the walk
normalizes the path to `spec.a`, which is not in the stored allow set
`\x7bspec.a[0]\x7d` — refuting the claim that prune of a skeleton always
yields empty removals. -/
theorem c6_counterexample_bracket_property :
    (lookupP (registerSchema emptyRegistry "g/v1" "Foo" bracketSchema).full_schema
      ("g/v1", "Foo")).isSome = true ∧
    pruneData (registerSchema emptyRegistry "g/v1" "Foo" bracketSchema)
      (skeletonBody bracketSchema "g/v1" "Foo") =
      .ok (.map [("apiVersion", .str "g/v1"), ("kind", .str "Foo"),
        ("spec", .map [])], ["spec.a"], []) := by
  constructor
  · simp [registerSchema, bracketSchema, emptyRegistry, setP, lookupP, lookupS,
      propsOf, asMapD, Yaml.orElse, Yaml.truthy, Yaml.getK, collectPs, collectComb,
      collectList, collectProps, fieldOr]
  · simp [pruneData, registerSchema, bracketSchema, skeletonBody, skelMeta, skelReq,
      build, buildProps, reqSetL, orElseA, dedupStr, insStr, sortStr,
      emptyRegistry, setP, lookupP, lookupS, propsOf, asMapD, Yaml.orElse, Yaml.truthy,
      Yaml.getK, collectPs, collectComb, collectList, collectProps, fieldOr, keyOf,
      walkY, walkKVs, walkArr, idxSub, idxSubAux, dropIdx, dropIdxRest, startsw,
      pruneMetaStage, annStep, pruneTopStage, Yaml.setK, Yaml.popK,
      ALLOWED_META_ANNOTATIONS, ALLOWED_META_LABELS]

/-- A well-formed full schema: required name under metadata, a spec object
with one required integer property with an index-stable name. -/
def widgetSchema : Yaml :=
  .map [("type", .str "object"),
        ("properties", .map [
           ("metadata", .map [("type", .str "object"),
             ("required", .arr [.str "name"])]),
           ("spec", .map [("type", .str "object"),
             ("required", .arr [.str "size"]),
             ("properties", .map [("size", .map [("type", .str "integer")])])])])]

/-- C6 witness: `widgetSchema` satisfies the well-formedness hypothesis,
and pruning its skeleton returns the skeleton with empty removals. -/
theorem c6_amended_witness :
    wfSchemaTop widgetSchema = true ∧
    pruneData (registerSchema emptyRegistry "g/v1" "Widget" widgetSchema)
      (skeletonBody widgetSchema "g/v1" "Widget") =
      .ok (skeletonBody widgetSchema "g/v1" "Widget", [], []) :=
  ⟨by simp [widgetSchema, wfSchemaTop, wfS, wfComb, wfList, wfProps, namesOk,
      namesProps, reqOk, reqSetL, orElseA, propsOf, fieldOr, asMapD, Yaml.getK,
      Yaml.orElse, Yaml.truthy, Yaml.isMap, idxSub, idxSubAux, dropIdx, dropIdxRest],
   c6_amended_prune_skeleton "g/v1" "Widget" widgetSchema
     (by simp [widgetSchema, wfSchemaTop, wfS, wfComb, wfList, wfProps, namesOk,
       namesProps, reqOk, reqSetL, orElseA, propsOf, fieldOr, asMapD, Yaml.getK,
       Yaml.orElse, Yaml.truthy, Yaml.isMap, idxSub, idxSubAux, dropIdx, dropIdxRest])⟩

/-- C4 witness: the refinement theorem instantiated at a concrete
document, with the size bound discharged at the document's own size. -/
theorem c4_amended_records_witness :
    walkY ["spec.rules"] ""
      (.map [("spec", .map [("rules", .arr [.map [("name", .str "x")]])])]) =
      ((walkSpecY ["spec.rules"] ""
        (.map [("spec", .map [("rules", .arr [.map [("name", .str "x")]])])])).1,
       (walkSpecY ["spec.rules"] ""
        (.map [("spec", .map [("rules", .arr [.map [("name", .str "x")]])])])).2.map
          idxSub) :=
  c4_amended_records_normalized ["spec.rules"] ""
    (sizeOf (Yaml.map [("spec", Yaml.map [("rules",
      Yaml.arr [Yaml.map [("name", Yaml.str "x")]])])])) _ le_rfl
